import Mathlib

/-!
A verification model of the reactive-state library in `src/core.ts`
(`makeReactive`, `takeSnapshot`, `applySnapshot`, `subscribe`, `applyChange`).

Modelling choices, fixed once and used throughout:

* The library documents that only plain objects, arrays and primitive values
  are supported and that object graphs with shared references or cycles are
  unsupported.  The model therefore represents the raw mutable value graph as
  a tree (`MVal`), and a proxy (`Reactive` handle) is identified by the path
  of the raw object it wraps.  `parentProxyCache` is represented implicitly:
  the parent proxy recorded at wrap time is exactly the proxy of the
  structural parent path, so `invalidateSnapshots` walks `Path.dropLast`.
* Snapshots are JS objects whose identity matters (`===`, `WeakSet`
  membership), so they live in an explicit append-only heap
  (`St.snapHeap`), addressed by `Nat`.  `snapshotsSet` membership is
  `MVal.snap a` vs `MVal.obj ..` at the type level: a value is recognized as
  a snapshot exactly when it is an address of this heap.
* Scalars (`Scal`) model primitives; functions/dates are opaque scalars and
  irrelevant to the claims.  `NaN` is excluded so `===` is equality.
* Fallible operations return `Except Err`; JS exceptions (including the
  engine's proxy invariant for non-writable non-configurable own data
  properties, and strict-mode assignment failures) are `Err.typeError`.
* Recursive walks over the heap (`takeSnapshot`, `applySnapshot`, the
  notification flush) take an explicit fuel parameter; theorems are stated
  for runs that return a result, which is what actually happens in JS on the
  supported (finite, acyclic) inputs.
* Callbacks are closures in the source; the model gives each callback an
  identifier and an environment entry (`CbSpec`) holding the proxy, the
  selector (a small expression language over reads, dynamic reads and key
  enumeration — the only operations the selectors of the spec and tests
  perform) and the mutations the user callback performs.  `St.log` records
  each invocation of a callback, mirroring the test suite's call counters.
-/

namespace Snappy

/-- JS primitive values (plus `undefined` and `null`). -/
inductive Scal where
  | undef
  | null
  | num (n : Int)
  | str (s : String)
  | bool (b : Bool)
deriving DecidableEq, Repr

/-- A raw (non-proxy) JS value of the supported universe: a primitive, a
reference to a registered snapshot, or a plain object with insertion-ordered
fields and an `Object.freeze` flag. -/
inductive MVal where
  | scal (s : Scal)
  | snap (a : Nat)
  | obj (frozen : Bool) (entries : List (String × MVal))

/-- A value stored inside a snapshot object: `takeSnapshot` only ever stores
primitives or references to other snapshots. -/
inductive SVal where
  | scal (s : Scal)
  | ref (a : Nat)
deriving DecidableEq, Repr

/-- A snapshot object in the snapshot heap. -/
structure SnapObj where
  frozen : Bool
  entries : List (String × SVal)
deriving DecidableEq, Repr

/-- A property key as used by the dependency tracker: an application string
key, or the distinguished `OWN_KEYS` symbol (core.ts line 104). -/
inductive PKey where
  | prop (k : String)
  | ownKeysSym
deriving DecidableEq, Repr

/-- Paths into the raw value tree; the proxy of the raw object reached by
path `p` is `TVal.prox p`. -/
abbrev Path := List String

/-- A JS value as passed around by the library: either a plain raw value or
a proxy (reactive handle) over the raw object at a path. -/
inductive TVal where
  | plain (v : MVal)
  | prox (p : Path)

/-- Model-level runtime failures: thrown `Error`s of the source and engine
`TypeError`s, plus fuel exhaustion of the bounded interpreter. -/
inductive Err where
  | fuelOut
  | typeError
  | noSavedSnapshot
  | nonProxified
  | noCallbacks
  | missingCallback
deriving DecidableEq, Repr

/-- Selector expressions: the reads a subscription's selector performs on the
handle (static reads, dynamic reads `s[s.key]`, and `Object.keys`). -/
inductive Expr where
  | root
  | getKey (e : Expr) (k : String)
  | getDyn (e : Expr) (ke : Expr)
  | objKeys (e : Expr)
deriving DecidableEq

/-- Result of evaluating a selector expression. -/
inductive EvalRes where
  | v (t : TVal)
  | keyList (l : List String)

/-- A mutation performed through a tracked handle (inside `applyChange`'s
mutator or by a user callback). -/
inductive Act where
  | aset (p : Path) (k : String) (v : MVal)
  | adel (p : Path) (k : String)

/-- The model of the closure created by `subscribe`: the captured proxy, the
selector, and the mutations the user callback performs when invoked. -/
structure CbSpec where
  rootPath : Path
  sel : Expr
  acts : List Act

/-- The global state of core.ts: the raw value tree, the snapshot heap and
its allocator, and the module-level caches (`proxyCache` domain as `tracked`,
`snapshotsCache` as `snapC`, `callbacksCache` as `cbs`,
`invalidatedCallbacks`, `callbackSubscriptionsCache` as `cbSubs`,
`currentCallbacks`), plus the callback environment and invocation log of the
model. -/
structure St where
  root : MVal
  snapHeap : List (Nat × SnapObj)
  snapNext : Nat
  tracked : List Path
  snapC : List (Path × Option Nat)
  cbs : List (Path × List (PKey × List Nat))
  invalidated : List Nat
  cbSubs : List (Nat × List (Path × PKey))
  currentCbs : List Nat
  cbEnv : List (Nat × CbSpec)
  log : List Nat

/-! ### Association-list helpers (JS objects, `Map`s and `Set`s) -/

/-- Lookup in an insertion-ordered association list. -/
def lookupKey {α β : Type} [DecidableEq α] : List (α × β) → α → Option β
  | [], _ => none
  | (a, b) :: rest, k => if k = a then some b else lookupKey rest k

/-- JS assignment semantics on an object's field list: update an existing key
in place, or append a new key at the end. -/
def setKey {α β : Type} [DecidableEq α] : List (α × β) → α → β → List (α × β)
  | [], k, v => [(k, v)]
  | (a, b) :: rest, k, v =>
    if k = a then (k, v) :: rest else (a, b) :: setKey rest k v

/-- JS `delete` semantics on an object's field list. -/
def removeKey {α β : Type} [DecidableEq α] (l : List (α × β)) (k : α) :
    List (α × β) :=
  l.filter (fun e => e.1 ≠ k)

/-- JS `Set.prototype.add`: append if not already present. -/
def addIfAbsent {α : Type} [DecidableEq α] (l : List α) (x : α) : List α :=
  if x ∈ l then l else l ++ [x]

/-! ### Canonical trees (for deep equality of values across object identity) -/

/-- The shape of a value with all identity erased; object fields are sorted
by key so that deep equality is key-order insensitive, as `toEqual` in the
repository's test suite is. -/
inductive Tree where
  | leaf (s : Scal)
  | node (entries : List (String × Tree))

mutual
/-- Boolean equality of canonical trees. -/
def treeBEq : Tree → Tree → Bool
  | Tree.leaf s, Tree.leaf t => decide (s = t)
  | Tree.node l, Tree.node m => treeListBEq l m
  | _, _ => false

def treeListBEq : List (String × Tree) → List (String × Tree) → Bool
  | [], [] => true
  | (k, t) :: r, (k', t') :: r' => decide (k = k') && treeBEq t t' && treeListBEq r r'
  | _ :: _, [] => false
  | [], _ :: _ => false
end

/-- Sort object fields by key for the canonical tree. -/
def sortTreeEntries (l : List (String × Tree)) : List (String × Tree) :=
  l.mergeSort (fun a b => a.1 ≤ b.1)

mutual
/-- Canonical tree of a snapshot address (fuel bounds the reference depth). -/
def treeOfS : Nat → List (Nat × SnapObj) → Nat → Option Tree
  | 0, _, _ => none
  | n + 1, H, a => do
    let o ← lookupKey H a
    let ts ← treeOfSList n H o.entries
    pure (Tree.node (sortTreeEntries ts))
termination_by n _ _ => (n, 0)

def treeOfSList : Nat → List (Nat × SnapObj) → List (String × SVal) →
    Option (List (String × Tree))
  | _, _, [] => some []
  | n, H, (k, SVal.scal s) :: rest => do
    let ts ← treeOfSList n H rest
    pure ((k, Tree.leaf s) :: ts)
  | n, H, (k, SVal.ref b) :: rest => do
    let t ← treeOfS n H b
    let ts ← treeOfSList n H rest
    pure ((k, t) :: ts)
termination_by n _ l => (n, l.length + 1)
end

mutual
/-- Canonical tree of a raw value (fuel is only consumed by embedded
snapshot references). -/
def treeOfM (n : Nat) (H : List (Nat × SnapObj)) : MVal → Option Tree
  | MVal.scal s => some (Tree.leaf s)
  | MVal.snap a => treeOfS n H a
  | MVal.obj _ entries => do
    let ts ← treeOfMList n H entries
    pure (Tree.node (sortTreeEntries ts))

def treeOfMList (n : Nat) (H : List (Nat × SnapObj)) :
    List (String × MVal) → Option (List (String × Tree))
  | [] => some []
  | (k, v) :: rest => do
    let t ← treeOfM n H v
    let ts ← treeOfMList n H rest
    pure ((k, t) :: ts)
end

/-! ### The raw value tree -/

/-- The raw object reached from the root by a path (the target of the proxy
identified by that path). -/
def nodeAt : MVal → Path → Option MVal
  | v, [] => some v
  | MVal.obj _ entries, k :: p =>
    match lookupKey entries k with
    | some v => nodeAt v p
    | none => none
  | _, _ :: _ => none

/-- Write field `k` of the object at path `p` (the effect of a successful
`Reflect.set` through a proxy). -/
def setAtPath : MVal → Path → String → MVal → MVal
  | MVal.obj fr entries, [], k, v => MVal.obj fr (setKey entries k v)
  | MVal.obj fr entries, k' :: p, k, v =>
    (match lookupKey entries k' with
     | some child => MVal.obj fr (setKey entries k' (setAtPath child p k v))
     | none => MVal.obj fr entries)
  | v, _, _, _ => v

/-- Remove field `k` of the object at path `p` (successful
`Reflect.deleteProperty` through a proxy). -/
def removeAtPath : MVal → Path → String → MVal
  | MVal.obj fr entries, [], k => MVal.obj fr (removeKey entries k)
  | MVal.obj fr entries, k' :: p, k =>
    (match lookupKey entries k' with
     | some child => MVal.obj fr (setKey entries k' (removeAtPath child p k))
     | none => MVal.obj fr entries)
  | v, _, _ => v

/-! ### core.ts, lines 40-43 and 104-174: `isMutable` and the proxy -/

/-- core.ts lines 40-43: a value can/should be wrapped iff it is a non-null
object that is not a registered snapshot.  `Object.freeze`d plain objects are
still "mutable" in this sense — the source does not check frozenness here. -/
def isMutable : MVal → Bool
  | MVal.obj _ _ => true
  | _ => false

/-- `isMutable` applied to a value as the library sees it: a proxy is itself
a plain JS object and never a member of `snapshotsSet`, so it counts as
mutable. -/
def isMutableT : TVal → Bool
  | TVal.plain v => isMutable v
  | TVal.prox _ => true

/-- core.ts lines 69-93: `getCallbacksSetForKey` (which creates the per-key
set on demand and throws `"No callbacks found for proxy"` when the proxy has
no `callbacksCache` entry) followed by `markCurrentCallbacks`'s loop: every
current callback is added to the key's set, and the `(proxy, key)` pair is
appended to the callback's subscription set (the source allocates a fresh
pair object every time, so the pair is appended unconditionally). -/
def markCurrentCallbacks (st : St) (p : Path) (k : PKey) : Except Err St := do
  let some byKey := lookupKey st.cbs p | throw Err.noCallbacks
  let cset := (lookupKey byKey k).getD []
  let cset := st.currentCbs.foldl (fun s c => addIfAbsent s c) cset
  let subs := st.currentCbs.foldl
    (fun sb c => setKey sb c ((lookupKey sb c).getD [] ++ [(p, k)])) st.cbSubs
  pure { st with cbs := setKey st.cbs p (setKey byKey k cset), cbSubs := subs }

/-- core.ts lines 95-102: add every callback subscribed to `(proxy, key)` to
the invalidated set.  The non-null assertion `callbacksCache.get(proxy)!`
crashes when the proxy has no entry. -/
def invalidateCallbacks (st : St) (p : Path) (k : PKey) : Except Err St := do
  let some byKey := lookupKey st.cbs p | throw Err.noCallbacks
  match lookupKey byKey k with
  | none => pure st
  | some cset =>
      pure { st with invalidated := cset.foldl addIfAbsent st.invalidated }

/-- core.ts lines 46-61: tombstone the proxy's cached snapshot and recurse
into the parent, stopping early when the snapshot is already invalidated
(the parents are then already invalidated too).  The parent proxy recorded
at wrap time is the proxy of the structural parent, i.e. `p.dropLast`; the
root was created with parent `null`. -/
def invalidateSnapshots (st : St) (p : Path) : Except Err St :=
  match lookupKey st.snapC p with
  | none => throw Err.noSavedSnapshot
  | some none => pure st
  | some (some _) =>
      let st' := { st with snapC := setKey st.snapC p none }
      if h : p = [] then pure st'
      else invalidateSnapshots st' p.dropLast
termination_by p.length
decreasing_by
  simp_wf
  exact List.length_pos.mpr h

/-- core.ts lines 106-115 and 168-173: return non-mutable values unchanged,
return the cached proxy if the raw object is already wrapped, otherwise
create a proxy and initialize its parent link, empty snapshot slot and empty
callback record.  `p` is the tree position of the raw value being wrapped,
which identifies its proxy. -/
def makeReactiveWithParent (st : St) (value : MVal) (p : Path) : St × TVal :=
  if isMutable value = false then (st, TVal.plain value)
  else if p ∈ st.tracked then (st, TVal.prox p)
  else ({ st with
            tracked := st.tracked ++ [p],
            snapC := setKey st.snapC p none,
            cbs := setKey st.cbs p [] },
        TVal.prox p)

/-- core.ts lines 65-67: `makeReactive` wraps with parent `null`, i.e. at the
root position. -/
def makeReactive (st : St) (value : MVal) : St × TVal :=
  makeReactiveWithParent st value []

/-- The pristine state holding a raw value graph and empty caches. -/
def initSt (v : MVal) : St :=
  { root := v, snapHeap := [], snapNext := 0, tracked := [], snapC := [],
    cbs := [], invalidated := [], cbSubs := [], currentCbs := [], cbEnv := [],
    log := [] }

/-- A fresh reactive root: `makeReactive` applied to a raw value graph. -/
def makeReactiveRoot (v : MVal) : St :=
  (makeReactive (initSt v) v).1

/-- core.ts lines 118-134, the `get` trap: read the value and its own
descriptor; a property without an own descriptor is returned unwrapped and
untracked; otherwise the read is recorded for the current callbacks and the
value is returned wrapped via `makeReactiveWithParent`.  The commented-out
frozen-field check of the source is absent, so for a target frozen in place
the JS engine's proxy invariant applies after the trap returns: the reported
value of a non-writable non-configurable own data property must be the
target's value itself, and a freshly wrapped proxy is a different object, so
the engine raises a `TypeError`. -/
def getTrap (st : St) (p : Path) (k : String) : Except Err (St × TVal) := do
  let some node := nodeAt st.root p | throw Err.typeError
  match node with
  | MVal.obj frozen entries =>
    let value := (lookupKey entries k).getD (MVal.scal Scal.undef)
    if (lookupKey entries k).isNone then
      pure (st, TVal.plain value)
    else do
      let st ← markCurrentCallbacks st p (PKey.prop k)
      let (st, result) := makeReactiveWithParent st value (p ++ [k])
      if frozen && (match result with
                    | TVal.prox _ => true
                    | TVal.plain _ => false) then
        throw Err.typeError
      else
        pure (st, result)
  | _ => throw Err.typeError

/-- core.ts lines 136-146, the `set` trap: dirty the `OWN_KEYS` subscribers
when the key is new, perform `Reflect.set` (which fails on a frozen target),
invalidate the snapshots along the parent chain and the subscribers of the
written key, and finally — because the source runs in strict mode — raise a
`TypeError` at the assignment site when `Reflect.set` returned `false`. -/
def setTrap (st : St) (p : Path) (k : String) (v : MVal) : Except Err St := do
  let some node := nodeAt st.root p | throw Err.typeError
  match node with
  | MVal.obj frozen entries =>
    let st ← if (lookupKey entries k).isNone then
               invalidateCallbacks st p PKey.ownKeysSym
             else pure st
    let success := !frozen
    let st := if success then { st with root := setAtPath st.root p k v } else st
    let st ← invalidateSnapshots st p
    let st ← invalidateCallbacks st p (PKey.prop k)
    if success then pure st else throw Err.typeError
  | _ => throw Err.typeError

/-- core.ts lines 148-153, the `deleteProperty` trap: perform the deletion,
invalidate the snapshots along the parent chain, and dirty the subscribers
of the `OWN_KEYS` pseudo-key.  No per-key invalidation happens here. -/
def deleteProperty (st : St) (p : Path) (k : String) : Except Err St := do
  let some node := nodeAt st.root p | throw Err.typeError
  match node with
  | MVal.obj frozen entries =>
    let success := !(frozen && (lookupKey entries k).isSome)
    let st := if success then { st with root := removeAtPath st.root p k } else st
    let st ← invalidateSnapshots st p
    let st ← invalidateCallbacks st p PKey.ownKeysSym
    if success then pure st else throw Err.typeError
  | _ => throw Err.typeError

/-- core.ts lines 154-157, the `ownKeys` trap (what `Object.keys` on a proxy
reaches): record a read of the `OWN_KEYS` pseudo-key, then list the keys. -/
def ownKeys (st : St) (p : Path) : Except Err (St × List String) := do
  let some node := nodeAt st.root p | throw Err.typeError
  match node with
  | MVal.obj _ entries => do
    let st ← markCurrentCallbacks st p PKey.ownKeysSym
    pure (st, entries.map Prod.fst)
  | _ => throw Err.typeError

/-! ### core.ts lines 176-240: snapshots -/

/-- core.ts line 176. -/
def FREEZE : Bool := true

/-- The values `takeSnapshot` stores into a snapshot under construction:
primitives and other snapshots. -/
def toSVal : TVal → Option SVal
  | TVal.plain (MVal.scal s) => some (SVal.scal s)
  | TVal.plain (MVal.snap a) => some (SVal.ref a)
  | _ => none

mutual
/-- core.ts lines 179-213: non-mutable values (scalars and recognized
snapshots) pass through; a mutable value without a `snapshotsCache` entry —
i.e. a raw object rather than a proxy, since the cache is keyed by proxies —
raises the `"Trying to snapshot a non-proxified object"` error; a valid
cached snapshot is returned as-is; otherwise the snapshot is rebuilt from
`Object.keys` (through the `ownKeys` trap) and per-key reads (through the
`get` trap), frozen (`FREEZE` is `true`), registered in `snapshotsSet`, and
cached.  Arrays are outside the model universe; the record branch is the one
modelled. -/
def takeSnapshot : Nat → St → TVal → Except Err (St × TVal)
  | 0, _, _ => throw Err.fuelOut
  | n + 1, st, v => do
    if isMutableT v = false then pure (st, v)
    else match v with
      | TVal.plain _ => throw Err.nonProxified
      | TVal.prox p =>
        match lookupKey st.snapC p with
        | none => throw Err.nonProxified
        | some (some a) => pure (st, TVal.plain (MVal.snap a))
        | some none => do
          let (st, ks) ← ownKeys st p
          let (st, entries) ← takeSnapList n st p ks
          let a := st.snapNext
          let st := { st with
            snapHeap := st.snapHeap ++ [(a, ⟨FREEZE, entries⟩)],
            snapNext := a + 1,
            snapC := setKey st.snapC p (some a) }
          pure (st, TVal.plain (MVal.snap a))
termination_by n _ _ => (n, 0)

/-- The loop `for (const key of Object.keys(value)) snapshot[key] =
takeSnapshot(value[key])`, with the reads going through the `get` trap. -/
def takeSnapList : Nat → St → Path → List String →
    Except Err (St × List (String × SVal))
  | _, st, _, [] => pure (st, [])
  | n, st, p, k :: ks => do
    let (st, cv) ← getTrap st p k
    let (st, sv) ← takeSnapshot n st cv
    let some s := toSVal sv | throw Err.typeError
    let (st, rest) ← takeSnapList n st p ks
    pure (st, (k, s) :: rest)
termination_by n _ _ ks => (n, ks.length + 1)
end

/-- JS `===` on the values compared by `applySnapshot`: primitives compare
by value, snapshots by identity; a raw object and anything else are never
identical (two structurally equal raw objects are distinct objects). -/
def jsSame : MVal → MVal → Bool
  | MVal.scal a, MVal.scal b => decide (a = b)
  | MVal.snap a, MVal.snap b => decide (a = b)
  | _, _ => false

/-- `===` between a library-level value and a plain value: a proxy is never
identical to a plain value. -/
def jsSameT : TVal → MVal → Bool
  | TVal.plain m, s => jsSame m s
  | TVal.prox _, _ => false

/-- Convert a stored snapshot value back to a plain value. -/
def sValToM : SVal → MVal
  | SVal.scal s => MVal.scal s
  | SVal.ref a => MVal.snap a

/-- Plain (non-proxy) property read `s[k]`, as `applySnapshot` performs on
the snapshot side: reading a property of `undefined` or `null` throws;
other primitives have no own properties; objects and snapshots return the
stored value or `undefined`. -/
def sGet (st : St) (s : MVal) (k : String) : Except Err MVal :=
  match s with
  | MVal.snap a =>
    (match lookupKey st.snapHeap a with
     | some o => pure (((lookupKey o.entries k).map sValToM).getD (MVal.scal Scal.undef))
     | none => throw Err.typeError)
  | MVal.obj _ entries =>
    pure ((lookupKey entries k).getD (MVal.scal Scal.undef))
  | MVal.scal Scal.undef => throw Err.typeError
  | MVal.scal Scal.null => throw Err.typeError
  | MVal.scal _ => pure (MVal.scal Scal.undef)

/-- Plain `Object.keys(s)` on a non-proxy value. -/
def jsKeys (st : St) (s : MVal) : Except Err (List String) :=
  match s with
  | MVal.snap a =>
    (match lookupKey st.snapHeap a with
     | some o => pure (o.entries.map Prod.fst)
     | none => throw Err.typeError)
  | MVal.obj _ entries => pure (entries.map Prod.fst)
  | MVal.scal Scal.undef => throw Err.typeError
  | MVal.scal Scal.null => throw Err.typeError
  | MVal.scal _ => pure []

mutual
/-- core.ts lines 218-240: bail out if `takeSnapshot(proxy) === snapshot`;
otherwise apply the snapshot at every key of `Object.keys(proxy)` and then at
every key of `Object.keys(snapshot)`. -/
def applySnapshot : Nat → St → TVal → MVal → Except Err St
  | 0, _, _, _ => throw Err.fuelOut
  | n + 1, st, pv, s => do
    let (st, t) ← takeSnapshot (n + 1) st pv
    if jsSameT t s then pure st
    else match pv with
      | TVal.prox p => do
        let (st, ks) ← ownKeys st p
        let st ← applyLoop n st p s ks
        let sks ← jsKeys st s
        applyLoop n st p s sks
      | TVal.plain _ => throw Err.typeError
termination_by n _ _ _ => (n, 0, 0)

def applyLoop : Nat → St → Path → MVal → List String → Except Err St
  | _, st, _, _, [] => pure st
  | n, st, p, s, k :: ks => do
    let st ← applyAtKey n st p s k
    applyLoop n st p s ks
termination_by n _ _ _ ks => (n, 1, ks.length)

/-- core.ts lines 225-232, `applyOldSnapshotAtKey`: read `proxy[key]`; apply
recursively when the value is mutable; otherwise re-read `proxy[key]`,
compare it to `snapshot[key]` with `===` and write `snapshot[key]` through
the proxy when they differ. -/
def applyAtKey : Nat → St → Path → MVal → String → Except Err St
  | n, st, p, s, k => do
    let (st, value) ← getTrap st p k
    if isMutableT value then do
      let sv ← sGet st s k
      applySnapshot n st value sv
    else do
      let (st, w) ← getTrap st p k
      let sv ← sGet st s k
      if jsSameT w sv then pure st
      else setTrap st p k sv
termination_by n _ _ _ _ => (n, 0, 1)
end

/-! ### core.ts lines 242-283: subscriptions and notification -/

/-- One step of the `rawSubscribe` cleanup loop: remove the callback from the
dependent-set of one previously recorded `(proxy, key)` pair.  The source
reads `callbacksCache.get(proxy)!`, which crashes if the proxy has no entry,
and skips silently when the per-key set is missing. -/
def removeSub (st : St) (c : Nat) (pr : Path × PKey) : Except Err St := do
  let some byKey := lookupKey st.cbs pr.1 | throw Err.noCallbacks
  match lookupKey byKey pr.2 with
  | none => pure st
  | some cset =>
      pure { st with
        cbs := setKey st.cbs pr.1 (setKey byKey pr.2 (cset.filter (· ≠ c))) }

/-- Run a mutation through the tracked handle. -/
def runAct (st : St) : Act → Except Err St
  | Act.aset p k v => setTrap st p k v
  | Act.adel p k => deleteProperty st p k

/-- Evaluate a selector against the proxy at `rp`, with all reads flowing
through the proxy traps (or plain property access when the selector reached
a non-proxy value such as a snapshot). -/
def evalSel (st : St) (rp : Path) : Expr → Except Err (St × EvalRes)
  | Expr.root => pure (st, EvalRes.v (TVal.prox rp))
  | Expr.getKey e k => do
    let (st, r) ← evalSel st rp e
    match r with
    | EvalRes.v (TVal.prox p) => do
      let (st, v) ← getTrap st p k
      pure (st, EvalRes.v v)
    | EvalRes.v (TVal.plain m) => do
      let v ← sGet st m k
      pure (st, EvalRes.v (TVal.plain v))
    | EvalRes.keyList _ => throw Err.typeError
  | Expr.getDyn e ke => do
    let (st, r) ← evalSel st rp e
    let (st, rk) ← evalSel st rp ke
    match r, rk with
    | EvalRes.v (TVal.prox p), EvalRes.v (TVal.plain (MVal.scal (Scal.str k))) => do
      let (st, v) ← getTrap st p k
      pure (st, EvalRes.v v)
    | EvalRes.v (TVal.plain m), EvalRes.v (TVal.plain (MVal.scal (Scal.str k))) => do
      let v ← sGet st m k
      pure (st, EvalRes.v (TVal.plain v))
    | _, _ => throw Err.typeError
  | Expr.objKeys e => do
    let (st, r) ← evalSel st rp e
    match r with
    | EvalRes.v (TVal.prox p) => do
      let (st, ks) ← ownKeys st p
      pure (st, EvalRes.keyList ks)
    | EvalRes.v (TVal.plain m) => do
      let ks ← jsKeys st m
      pure (st, EvalRes.keyList ks)
    | EvalRes.keyList _ => throw Err.typeError

/-- The closure `newCallback` built by `subscribe` (core.ts lines 242-268):
`rawSubscribe` first tears down the dependent-set entries of all previously
recorded subscription pairs, then evaluates the selector with the callback
in `currentCallbacks`, and finally the user callback observes the result —
in the model it logs the invocation and performs its mutations. -/
def runCallback (st : St) (c : Nat) : Except Err St := do
  let some spec := lookupKey st.cbEnv c | throw Err.missingCallback
  let pairs := (lookupKey st.cbSubs c).getD []
  let st ← pairs.foldlM (fun st pr => removeSub st c pr) st
  let st := { st with currentCbs := addIfAbsent st.currentCbs c }
  let r ← evalSel st spec.rootPath spec.sel
  let st := { r.1 with currentCbs := r.1.currentCbs.filter (· ≠ c) }
  let st := { st with log := st.log ++ [c] }
  spec.acts.foldlM runAct st

/-- `subscribe` (core.ts lines 259-268): register the closure and invoke it
once immediately. -/
def subscribe (st : St) (c : Nat) (p : Path) (sel : Expr) (acts : List Act) :
    Except Err St :=
  runCallback { st with cbEnv := setKey st.cbEnv c ⟨p, sel, acts⟩ } c

/-- core.ts lines 270-275: `for (const callback of invalidatedCallbacks)
callback(); invalidatedCallbacks.clear()`.  JS `Set` iteration visits
elements in insertion order and also visits elements inserted during the
iteration; the model iterates the list by index (the list only grows during
the loop) and clears it at the end. -/
def flushLoop : Nat → St → Nat → Except Err St
  | 0, _, _ => throw Err.fuelOut
  | n + 1, st, i =>
    if h : i < st.invalidated.length then do
      let st' ← runCallback st (st.invalidated.get ⟨i, h⟩)
      flushLoop n st' (i + 1)
    else pure { st with invalidated := [] }

/-- core.ts lines 270-275. -/
def notifySubscribers (n : Nat) (st : St) : Except Err St :=
  flushLoop n st 0

/-- core.ts lines 277-283: run the mutator, then notify. -/
def applyChange (n : Nat) (st : St) (acts : List Act) : Except Err St := do
  let st ← acts.foldlM runAct st
  notifySubscribers n st

/-! ### Direct writes to snapshots -/

/-- Strict-mode JS assignment `target[k] = v` on a plain (non-proxy) object,
as performed by code that tries to mutate a snapshot directly: assignment to
a property of a frozen object raises a `TypeError` and changes nothing;
otherwise the field is updated. -/
def writeSnap (st : St) (a : Nat) (k : String) (v : SVal) : Except Err St :=
  match lookupKey st.snapHeap a with
  | none => throw Err.typeError
  | some o =>
    if o.frozen then throw Err.typeError
    else pure { st with
      snapHeap := setKey st.snapHeap a ⟨o.frozen, setKey o.entries k v⟩ }

/-! ### Well-formedness of states

The properties below hold of every state reachable through the public API on
the supported universe (plain acyclic object trees, no duplicated mutable
references, mutations through the handles); the preservation lemmas for the
operations used by the general theorems are proved further down. -/

mutual
/-- A supported raw value: embedded snapshot references resolve in the heap,
object field names are unique, and no field stores `undefined` (a field
holding `undefined` is indistinguishable from a missing field for the deep
equality used by the repository's tests, and the library never stores one). -/
def mvalOK (dom : List Nat) : MVal → Bool
  | MVal.scal _ => true
  | MVal.snap a => decide (a ∈ dom)
  | MVal.obj _ entries =>
    decide ((entries.map Prod.fst).Nodup) && entriesOK dom entries

def entriesOK (dom : List Nat) : List (String × MVal) → Bool
  | [] => true
  | (_, v) :: rest =>
    (match v with
     | MVal.scal Scal.undef => false
     | _ => true) && mvalOK dom v && entriesOK dom rest
end

/-- A well-formed snapshot object at address `a`: unique field names, no
`undefined` fields, and references only to previously allocated snapshots
(children are allocated before their parent). -/
def snapObjOK (dom : List Nat) (a : Nat) (o : SnapObj) : Bool :=
  decide ((o.entries.map Prod.fst).Nodup) &&
  o.entries.all (fun e =>
    match e.2 with
    | SVal.scal Scal.undef => false
    | SVal.scal _ => true
    | SVal.ref b => decide (b < a) && decide (b ∈ dom))

/-- Enough fuel to resolve every snapshot reference of a state. -/
def treeFuel (st : St) : Nat := st.snapNext + 1

/-- The state invariant.  Beyond basic tidiness of the side tables it
records the facts that make the snapshot cache work: `tombUp` (a tombstoned
slot has a tombstoned parent slot — the reason `invalidateSnapshots` may
stop at the first tombstone), `liveKids` (a live slot's structured children
are all wrapped — they were visited when the cached snapshot was built) and
`coherent` (a live slot's snapshot is deep-equal to the current subtree). -/
structure WF (st : St) : Prop where
  rootOK : mvalOK (st.snapHeap.map Prod.fst) st.root = true
  heapNodup : (st.snapHeap.map Prod.fst).Nodup
  heapOK : ∀ e ∈ st.snapHeap, snapObjOK (st.snapHeap.map Prod.fst) e.1 e.2 = true
  heapLt : ∀ e ∈ st.snapHeap, e.1 < st.snapNext
  trackedNodup : st.tracked.Nodup
  trackedClosed : ∀ p ∈ st.tracked, p = [] ∨ p.dropLast ∈ st.tracked
  snapCNodup : (st.snapC.map Prod.fst).Nodup
  snapCTracked : ∀ e ∈ st.snapC, e.1 ∈ st.tracked
  trackedSnapC : ∀ p ∈ st.tracked, (lookupKey st.snapC p).isSome
  cbsNodup : (st.cbs.map Prod.fst).Nodup
  cbsTracked : ∀ e ∈ st.cbs, e.1 ∈ st.tracked
  trackedCbs : ∀ p ∈ st.tracked, (lookupKey st.cbs p).isSome
  tombUp : ∀ e ∈ st.snapC, e.2 = none →
    e.1 = [] ∨ lookupKey st.snapC e.1.dropLast = some none
  liveKids : ∀ e ∈ st.snapC, ∀ a : Nat, e.2 = some a →
    ∀ fr entries, nodeAt st.root e.1 = some (MVal.obj fr entries) →
    ∀ kv ∈ entries, isMutable kv.2 = true → e.1 ++ [kv.1] ∈ st.tracked
  coherent : ∀ e ∈ st.snapC, ∀ a : Nat, e.2 = some a →
    (lookupKey st.snapHeap a).isSome ∧
    (∀ fr entries, nodeAt st.root e.1 = some (MVal.obj fr entries) →
      ∃ t, treeOfM (treeFuel st) st.snapHeap (MVal.obj fr entries) = some t ∧
           treeOfS (treeFuel st) st.snapHeap a = some t)

/-! ### Compatibility and deep equality (for the snapshot round trip) -/

/-- The shape condition under which `applySnapshot` restores a snapshot:
at every position where the handle's tree currently holds a structured
mutable value, the snapshot holds a (structured) snapshot value and every
current key also exists in the snapshot — that is, no key (at any depth) was
added to the handle since the snapshot was taken.  Keys of the snapshot that
are missing from the handle (deletions) are unconstrained. -/
inductive Compat (H : List (Nat × SnapObj)) : MVal → MVal → Prop where
  | nonmut : ∀ v s, isMutable v = false → Compat H v s
  | objsnap : ∀ fr entries a o, lookupKey H a = some o →
      (∀ kv ∈ entries, (lookupKey o.entries kv.1).isSome) →
      (∀ kv ∈ entries, ∀ sv, lookupKey o.entries kv.1 = some sv →
        Compat H kv.2 (sValToM sv)) →
      Compat H (MVal.obj fr entries) (MVal.snap a)

mutual
/-- Executable sufficient check for `Compat` (used to discharge hypotheses
on concrete states). -/
def compatB : Nat → List (Nat × SnapObj) → MVal → MVal → Bool
  | 0, _, _, _ => false
  | n + 1, H, v, s =>
    if isMutable v = false then true
    else match v, s with
      | MVal.obj _ entries, MVal.snap a =>
        (match lookupKey H a with
         | some o => compatList n H o.entries entries
         | none => false)
      | _, _ => false
termination_by n _ _ _ => (n, 0)

def compatList : Nat → List (Nat × SnapObj) → List (String × SVal) →
    List (String × MVal) → Bool
  | _, _, _, [] => true
  | n, H, sents, (k, v) :: rest =>
    (match lookupKey sents k with
     | some sv => compatB n H v (sValToM sv)
     | none => false) && compatList n H sents rest
termination_by n _ _ l => (n, l.length + 1)
end

/-- Deep equality between a library-level value and a plain value, as the
repository's tests use it: equality of canonical trees. -/
def treeOfT (n : Nat) (st : St) : TVal → Option Tree
  | TVal.plain v => treeOfM n st.snapHeap v
  | TVal.prox p => (nodeAt st.root p).bind (treeOfM n st.snapHeap)

/-- `t` and `m` denote deep-equal values in state `st`. -/
def DeepEq (st : St) (t : TVal) (m : MVal) : Prop :=
  ∃ n tr, treeOfT n st t = some tr ∧ treeOfM n st.snapHeap m = some tr

/-- Every object in the snapshot heap is frozen (`FREEZE` is `true`, so
`takeSnapshot` freezes everything it registers). -/
def heapFrozen (st : St) : Prop := ∀ e ∈ st.snapHeap, e.2.frozen = true

/-- Every live snapshot-cache slot points to an allocated snapshot. -/
def snapDomOK (st : St) : Prop :=
  ∀ e ∈ st.snapC, ∀ b : Nat, e.2 = some b → (lookupKey st.snapHeap b).isSome

/-- Every snapshot-cache slot (live or tombstoned) belongs to a wrapped
proxy: `snapshotsCache` is only written with proxies as keys. -/
def cacheTracked (st : St) : Prop :=
  ∀ q : Path, (lookupKey st.snapC q).isSome → q ∈ st.tracked

/-- Every allocated snapshot address is below the allocator counter. -/
def heapLt (st : St) : Prop := ∀ e ∈ st.snapHeap, e.1 < st.snapNext

/-- How a state evolves across the read-only parts of snapshot taking: the
raw tree is untouched, the address allocator never decreases, allocated
snapshot objects and live cache slots survive unchanged, wrapped proxies
accumulate, and the cache/allocator invariants are preserved. -/
def SnapExt (st st' : St) : Prop :=
  st'.root = st.root ∧
  st.snapNext ≤ st'.snapNext ∧
  (∀ a o, lookupKey st.snapHeap a = some o → lookupKey st'.snapHeap a = some o) ∧
  (cacheTracked st → ∀ q a, lookupKey st.snapC q = some (some a) →
    lookupKey st'.snapC q = some (some a)) ∧
  (∀ q, q ∈ st.tracked → q ∈ st'.tracked) ∧
  (cacheTracked st → cacheTracked st') ∧
  (heapLt st → heapLt st')

/-! ### Concrete scenario states used by scenario claims and witnesses -/

/-- The spec's dynamic-dependency scenario: `{a: 1, b: 2, key: "a"}`. -/
def dynSt : St := makeReactiveRoot (MVal.obj false
  [("a", MVal.scal (Scal.num 1)), ("b", MVal.scal (Scal.num 2)),
   ("key", MVal.scal (Scal.str "a"))])

/-- Callback 1 subscribed with the selector `s => s[s.key]`. -/
def dynSub : Except Err St :=
  subscribe dynSt 1 [] (Expr.getDyn Expr.root (Expr.getKey Expr.root "key")) []

/-- The scenario after `applyChange` writing `a := 42`. -/
def dynAfterA : Except Err St :=
  dynSub.bind fun st => applyChange 20 st [Act.aset [] "a" (MVal.scal (Scal.num 42))]

/-- ... then `key := "b"`. -/
def dynAfterKey : Except Err St :=
  dynAfterA.bind fun st => applyChange 20 st [Act.aset [] "key" (MVal.scal (Scal.str "b"))]

/-- A handle over `{a: 1}` with callback 1 subscribed to `s => s.a`. -/
def keySubSt : Except Err St :=
  subscribe (makeReactiveRoot (MVal.obj false [("a", MVal.scal (Scal.num 1))]))
    1 [] (Expr.getKey Expr.root "a") []

/-- `makeReactive` over an in-place frozen object whose field `y` holds a
structured value. -/
def frozenStructSt : St := makeReactiveRoot (MVal.obj true
  [("y", MVal.obj false [("z", MVal.scal (Scal.num 1))])])

/-- `makeReactive` over a frozen object with a scalar field, read while
callback 7 is being tracked. -/
def frozenScalSt : St :=
  { makeReactiveRoot (MVal.obj true [("y", MVal.scal (Scal.num 5))]) with
      currentCbs := [7] }

/-- A fresh handle over `{a: 1}`. -/
def oneKeySt : St := makeReactiveRoot (MVal.obj false [("a", MVal.scal (Scal.num 1))])

/-- A cascade scenario over `{x: 1, y: 2}`: callback 2 watches `s.y` and does
nothing; callback 1 watches `s.x` and writes `y := 3` when it runs; a final
empty `applyChange` flushes the dirt left behind by the initial
subscription runs, so the state is quiescent. -/
def cascadeSt : Except Err St := do
  let st := makeReactiveRoot (MVal.obj false
    [("x", MVal.scal (Scal.num 1)), ("y", MVal.scal (Scal.num 2))])
  let st ← subscribe st 2 [] (Expr.getKey Expr.root "y") []
  let st ← subscribe st 1 [] (Expr.getKey Expr.root "x")
    [Act.aset [] "y" (MVal.scal (Scal.num 3))]
  applyChange 20 st []

/-- The cascade scenario after running only the mutator `x := 10` (no
notification yet): callback 1 is dirty, callback 2 is not. -/
def cascadeMut : Except Err St :=
  cascadeSt.bind fun st =>
    [Act.aset [] "x" (MVal.scal (Scal.num 10))].foldlM runAct st

/-- The cascade scenario after a full `applyChange` of `x := 10`: the flush
runs callback 1, whose write to `y` dirties callback 2 mid-flush, and
callback 2 is then run in the same flush. -/
def cascadeRun : Except Err St :=
  cascadeSt.bind fun st =>
    applyChange 20 st [Act.aset [] "x" (MVal.scal (Scal.num 10))]

/-- A handle over `{a: 1}` with callback 3 subscribed to the selector
`s => Object.keys(s)` (and a pure user callback). -/
def keysSub : Except Err St :=
  subscribe (makeReactiveRoot (MVal.obj false [("a", MVal.scal (Scal.num 1))]))
    3 [] (Expr.objKeys Expr.root) []

/-- ... after `applyChange` adding the key `b`. -/
def keysAdd : Except Err St :=
  keysSub.bind fun st => applyChange 20 st [Act.aset [] "b" (MVal.scal (Scal.num 5))]

/-- ... after `applyChange` deleting the key `a`. -/
def keysDel : Except Err St :=
  keysSub.bind fun st => applyChange 20 st [Act.adel [] "a"]

/-- ... after `applyChange` reassigning the existing key `a`. -/
def keysSet : Except Err St :=
  keysSub.bind fun st => applyChange 20 st [Act.aset [] "a" (MVal.scal (Scal.num 9))]

/-- Extract the state of a successful run (default for the error case). -/
def okOr (e : Except Err St) : St :=
  match e with
  | Except.ok s => s
  | Except.error _ => initSt (MVal.scal Scal.null)

/-- Extract the state of a successful state-and-value run. -/
def fstOk (e : Except Err (St × TVal)) : St :=
  match e with
  | Except.ok x => x.1
  | Except.error _ => initSt (MVal.scal Scal.null)

/-- Extract the value of a successful state-and-value run. -/
def sndOk (e : Except Err (St × TVal)) : TVal :=
  match e with
  | Except.ok x => x.2
  | Except.error _ => TVal.plain (MVal.scal Scal.null)

/-- The claim's two-subtree raw value: `{A: {x: 1}, B: {y: 2}}`. -/
def c4Root : MVal := MVal.obj false
  [("A", MVal.obj false [("x", MVal.scal (Scal.num 1))]),
   ("B", MVal.obj false [("y", MVal.scal (Scal.num 2))])]

/-- The two-subtree handle right after the first snapshot (which allocates
the `A`-subtree snapshot at address 0, the `B`-subtree snapshot at address 1
and the root snapshot at address 2). -/
def c4St : St := fstOk (takeSnapshot 20 (makeReactiveRoot c4Root) (TVal.prox []))

/-- ... after a write inside subtree `A` only (`handle.A.x = 9`). -/
def c4St2 : Except Err St := setTrap c4St ["A"] "x" (MVal.scal (Scal.num 9))

/-- ... the second snapshot, taken after that write. -/
def c4Snap2 : Except Err (St × TVal) :=
  c4St2.bind fun st => takeSnapshot 20 st (TVal.prox [])

/-- A handle over `{a: 1}` whose first snapshot (address 0) has been
taken. -/
def c1St : St := fstOk (takeSnapshot 20 (makeReactiveRoot
  (MVal.obj false [("a", MVal.scal (Scal.num 1))])) (TVal.prox []))

/-- ... after the structured key `b = {c: 2}` is added through the
handle. -/
def c1Add : Except Err St :=
  setTrap c1St [] "b" (MVal.obj false [("c", MVal.scal (Scal.num 2))])

/-! ## Lemmas: association lists and sets -/

theorem lookupKey_setKey_self {α β : Type} [DecidableEq α]
    (l : List (α × β)) (k : α) (v : β) : lookupKey (setKey l k v) k = some v := by
  induction l with
  | nil => simp [setKey, lookupKey]
  | cons e rest ih =>
    by_cases h : k = e.1
    · simp [setKey, h, lookupKey]
    · simp [setKey, h, lookupKey, ih]

theorem lookupKey_setKey_ne {α β : Type} [DecidableEq α]
    (l : List (α × β)) (k k' : α) (v : β) (h : k' ≠ k) :
    lookupKey (setKey l k v) k' = lookupKey l k' := by
  induction l with
  | nil => simp [setKey, lookupKey, h]
  | cons e rest ih =>
    by_cases h2 : k = e.1
    · subst h2
      simp [setKey, lookupKey, h]
    · by_cases h3 : k' = e.1
      · simp [setKey, h2, lookupKey, h3]
      · simp [setKey, h2, lookupKey, h3, ih]

theorem removeKey_cons {α β : Type} [DecidableEq α] (a : α) (b : β)
    (rest : List (α × β)) (k : α) :
    removeKey ((a, b) :: rest) k =
      if a = k then removeKey rest k else (a, b) :: removeKey rest k := by
  by_cases h : a = k <;> simp [removeKey, List.filter_cons, h]

theorem lookupKey_removeKey_self {α β : Type} [DecidableEq α]
    (l : List (α × β)) (k : α) : lookupKey (removeKey l k) k = none := by
  induction l with
  | nil => simp [removeKey, lookupKey]
  | cons e rest ih =>
    obtain ⟨a, b⟩ := e
    rw [removeKey_cons]
    by_cases h : a = k
    · rw [if_pos h]; exact ih
    · have : k ≠ a := fun hk => h hk.symm
      rw [if_neg h]
      simp [lookupKey, this, ih]

theorem lookupKey_removeKey_ne {α β : Type} [DecidableEq α]
    (l : List (α × β)) (k k' : α) (h : k' ≠ k) :
    lookupKey (removeKey l k) k' = lookupKey l k' := by
  induction l with
  | nil => simp [removeKey, lookupKey]
  | cons e rest ih =>
    obtain ⟨a, b⟩ := e
    rw [removeKey_cons]
    by_cases h2 : a = k
    · have hne : k' ≠ a := by rw [h2]; exact h
      rw [if_pos h2]
      simp [lookupKey, hne, ih]
    · rw [if_neg h2]
      by_cases h3 : k' = a
      · simp [lookupKey, h3]
      · simp [lookupKey, h3, ih]

theorem mem_addIfAbsent {α : Type} [DecidableEq α] (l : List α) (x y : α) :
    y ∈ addIfAbsent l x ↔ y ∈ l ∨ y = x := by
  by_cases h : x ∈ l
  · simp only [addIfAbsent, if_pos h]
    constructor
    · exact fun hy => Or.inl hy
    · rintro (hy | rfl) <;> [exact hy; exact h]
  · simp [addIfAbsent, if_neg h]

theorem mem_foldl_addIfAbsent {α : Type} [DecidableEq α]
    (xs l : List α) (y : α) :
    y ∈ xs.foldl addIfAbsent l ↔ y ∈ l ∨ y ∈ xs := by
  induction xs generalizing l with
  | nil => simp
  | cons x rest ih =>
    simp only [List.foldl_cons, ih, mem_addIfAbsent, List.mem_cons]
    tauto

theorem addIfAbsent_sub {α : Type} [DecidableEq α] (l : List α) (x : α) :
    ∃ ext, addIfAbsent l x = l ++ ext ∧ ∀ y ∈ ext, y ∉ l := by
  by_cases h : x ∈ l
  · exact ⟨[], by simp [addIfAbsent, h]⟩
  · exact ⟨[x], by simp [addIfAbsent, h], by simpa using h⟩

theorem foldl_addIfAbsent_sub {α : Type} [DecidableEq α] (xs l : List α) :
    ∃ ext, xs.foldl addIfAbsent l = l ++ ext ∧ ∀ y ∈ ext, y ∉ l := by
  induction xs generalizing l with
  | nil => exact ⟨[], by simp, by simp⟩
  | cons x rest ih =>
    obtain ⟨e1, he1, hn1⟩ := addIfAbsent_sub l x
    obtain ⟨e2, he2, hn2⟩ := ih (l ++ e1)
    refine ⟨e1 ++ e2, ?_, ?_⟩
    · simp [List.foldl_cons, he1, he2, List.append_assoc]
    · intro y hy
      rcases List.mem_append.mp hy with h1 | h2
      · exact hn1 y h1
      · intro hl
        exact hn2 y h2 (List.mem_append.mpr (Or.inl hl))

theorem nodup_addIfAbsent {α : Type} [DecidableEq α] (l : List α) (x : α)
    (h : l.Nodup) : (addIfAbsent l x).Nodup := by
  by_cases hx : x ∈ l
  · simpa [addIfAbsent, hx] using h
  · simp only [addIfAbsent, if_neg hx]
    refine List.Nodup.append h (List.nodup_singleton x) ?_
    intro a ha hax
    rw [List.mem_singleton] at hax
    exact hx (hax ▸ ha)

theorem nodup_foldl_addIfAbsent {α : Type} [DecidableEq α] (xs l : List α)
    (h : l.Nodup) : (xs.foldl addIfAbsent l).Nodup := by
  induction xs generalizing l with
  | nil => exact h
  | cons x rest ih => exact ih _ (nodup_addIfAbsent _ _ h)

/-! ## Lemmas: monadic plumbing -/

theorem exceptBind_ok {α β : Type} {e : Except Err α} {f : α → Except Err β}
    {b : β} (h : (do let x ← e; f x) = Except.ok b) :
    ∃ a, e = Except.ok a ∧ f a = Except.ok b := by
  cases e with
  | error err =>
    simp only [bind, Except.bind] at h
    exact Except.noConfusion h
  | ok a => exact ⟨a, rfl, by simpa [bind, Except.bind] using h⟩

theorem exceptBind_ok_of {α β : Type} {e : Except Err α} {f : α → Except Err β}
    {b : β} {a : α} (h1 : e = Except.ok a) (h2 : f a = Except.ok b) :
    (do let x ← e; f x) = Except.ok b := by
  rw [h1]
  simpa [bind, Except.bind] using h2

/-! ## Lemmas: effect shapes of the invalidation helpers -/

theorem invalidateSnapshots_shape : ∀ (n : Nat) (p : Path), p.length ≤ n →
    ∀ st st', invalidateSnapshots st p = Except.ok st' →
    ∃ sc, st' = { st with snapC := sc } := by
  intro n
  induction n with
  | zero =>
    intro p hp st st' h
    have hp0 : p = [] := List.eq_nil_of_length_eq_zero (Nat.le_zero.mp hp)
    subst hp0
    rw [invalidateSnapshots] at h
    cases hl : lookupKey st.snapC [] with
    | none => rw [hl] at h; exact absurd h (by simp)
    | some o =>
      cases o with
      | none =>
        rw [hl] at h
        exact ⟨st.snapC, by cases h; rfl⟩
      | some a =>
        rw [hl] at h
        rw [dif_pos rfl] at h
        exact ⟨setKey st.snapC [] none, by cases h; rfl⟩
  | succ m ih =>
    intro p hp st st' h
    rw [invalidateSnapshots] at h
    cases hl : lookupKey st.snapC p with
    | none => rw [hl] at h; exact absurd h (by simp)
    | some o =>
      cases o with
      | none =>
        rw [hl] at h
        exact ⟨st.snapC, by cases h; rfl⟩
      | some a =>
        rw [hl] at h
        by_cases hpe : p = []
        · rw [dif_pos hpe] at h
          exact ⟨setKey st.snapC p none, by cases h; subst hpe; rfl⟩
        · rw [dif_neg hpe] at h
          have hlen : p.dropLast.length ≤ m := by
            rw [List.length_dropLast]
            have := List.length_pos.mpr hpe
            omega
          obtain ⟨sc, hsc⟩ := ih p.dropLast hlen _ _ h
          refine ⟨sc, ?_⟩
          rw [hsc]

/-- `invalidateSnapshots` only rewrites the snapshot cache. -/
theorem invalidateSnapshots_ok (st st' : St) (p : Path)
    (h : invalidateSnapshots st p = Except.ok st') :
    ∃ sc, st' = { st with snapC := sc } :=
  invalidateSnapshots_shape p.length p le_rfl st st' h

/-- What `invalidateCallbacks` does: it only rewrites the invalidated set,
adding exactly the subscribers of `(p, k)`. -/
theorem invalidateCallbacks_ok (st st' : St) (p : Path) (k : PKey)
    (h : invalidateCallbacks st p k = Except.ok st') :
    (∃ inv, st' = { st with invalidated := inv }) ∧
    (∀ c : Nat, c ∈ st'.invalidated ↔ c ∈ st.invalidated ∨
      c ∈ ((lookupKey st.cbs p).bind (fun bk => lookupKey bk k)).getD []) := by
  rw [invalidateCallbacks] at h
  cases hb : lookupKey st.cbs p with
  | none => rw [hb] at h; exact absurd h (by simp)
  | some byKey =>
    rw [hb] at h
    simp only [Except.bind] at h
    cases hk : lookupKey byKey k with
    | none =>
      rw [hk] at h
      cases h
      exact ⟨⟨st.invalidated, by rfl⟩, by intro c; simp [hb, hk]⟩
    | some cset =>
      rw [hk] at h
      cases h
      exact ⟨⟨_, rfl⟩, by intro c; simp [hb, hk, mem_foldl_addIfAbsent]⟩

/-- The invalidations performed by a successful `deleteProperty`: the dirty
set grows by exactly the subscribers of the handle's `OWN_KEYS` pseudo-key;
the subscribers of `(h, k)` itself are not consulted. -/
theorem deleteProperty_invalidated (st st' : St) (p : Path) (k : String)
    (h : deleteProperty st p k = Except.ok st') :
    ∀ c : Nat, c ∈ st'.invalidated ↔ c ∈ st.invalidated ∨
      c ∈ ((lookupKey st.cbs p).bind (fun bk => lookupKey bk PKey.ownKeysSym)).getD [] := by
  rw [deleteProperty] at h
  cases hn : nodeAt st.root p with
  | none => rw [hn] at h; exact absurd h (by simp)
  | some node =>
    rw [hn] at h
    cases node with
    | scal s => exact absurd h (by simp)
    | snap a => exact absurd h (by simp)
    | obj fr entries =>
      simp only at h
      by_cases hs : (fr && (lookupKey entries k).isSome) = true
      · rw [hs] at h
        simp only [Bool.not_true] at h
        rw [if_neg Bool.false_ne_true] at h
        exfalso
        cases h1 : invalidateSnapshots st p with
        | error e =>
          rw [h1] at h
          simp only [bind, Except.bind] at h
          exact Except.noConfusion h
        | ok st1 =>
          rw [h1] at h
          simp only [bind, Except.bind] at h
          cases h2 : invalidateCallbacks st1 p PKey.ownKeysSym with
          | error e =>
            rw [h2] at h
            exact Except.noConfusion h
          | ok st2 =>
            rw [h2] at h
            exact Except.noConfusion h
      · rw [Bool.not_eq_true] at hs
        rw [hs] at h
        simp only [Bool.not_false] at h
        rw [if_pos trivial] at h
        set st0 : St := { st with root := removeAtPath st.root p k } with hst0
        cases h1 : invalidateSnapshots st0 p with
        | error e =>
          rw [h1] at h
          simp only [bind, Except.bind] at h
          exact Except.noConfusion h
        | ok st1 =>
          rw [h1] at h
          simp only [bind, Except.bind] at h
          cases h2 : invalidateCallbacks st1 p PKey.ownKeysSym with
          | error e =>
            rw [h2] at h
            exact Except.noConfusion h
          | ok st2 =>
            rw [h2] at h
            simp only [if_pos trivial, pure, Except.pure, Except.ok.injEq] at h
            subst h
            obtain ⟨sc, hsc⟩ := invalidateSnapshots_ok st0 st1 p h1
            obtain ⟨⟨inv, hinv⟩, hmem⟩ := invalidateCallbacks_ok st1 st2 p PKey.ownKeysSym h2
            intro c
            have hcbs1 : st1.cbs = st.cbs := by rw [hsc]
            have hinv1 : st1.invalidated = st.invalidated := by rw [hsc]
            rw [hmem c, hcbs1, hinv1]

/-! ## Lemmas: more association-list facts -/

theorem lookupKey_mem {α β : Type} [DecidableEq α] {l : List (α × β)} {k : α}
    {v : β} (h : lookupKey l k = some v) : (k, v) ∈ l := by
  induction l with
  | nil => exact absurd h (by simp [lookupKey])
  | cons e rest ih =>
    rw [lookupKey] at h
    by_cases he : k = e.1
    · rw [if_pos he] at h
      cases h
      exact List.mem_cons.mpr (Or.inl (Prod.ext he rfl))
    · rw [if_neg he] at h
      exact List.mem_cons_of_mem _ (ih h)

theorem mem_setKey {α β : Type} [DecidableEq α] {l : List (α × β)} {k : α}
    {v : β} {e : α × β} (h : e ∈ setKey l k v) : e = (k, v) ∨ e ∈ l := by
  induction l with
  | nil => simpa [setKey] using h
  | cons e' rest ih =>
    rw [setKey] at h
    by_cases he : k = e'.1
    · rw [if_pos he] at h
      rcases List.mem_cons.mp h with h1 | h1
      · exact Or.inl h1
      · exact Or.inr (List.mem_cons_of_mem _ h1)
    · rw [if_neg he] at h
      rcases List.mem_cons.mp h with h1 | h1
      · exact Or.inr (h1 ▸ List.mem_cons_self _ _)
      · rcases ih h1 with h2 | h2
        · exact Or.inl h2
        · exact Or.inr (List.mem_cons_of_mem _ h2)

theorem lookupKey_append_left {α β : Type} [DecidableEq α]
    (l l' : List (α × β)) (k : α) (h : (lookupKey l k).isSome) :
    lookupKey (l ++ l') k = lookupKey l k := by
  induction l with
  | nil => simp [lookupKey] at h
  | cons e rest ih =>
    rw [lookupKey] at h ⊢
    rw [List.cons_append, lookupKey]
    by_cases he : k = e.1
    · rw [if_pos he]; rw [if_pos he]
    · rw [if_neg he] at h ⊢
      rw [if_neg he]
      exact ih h

theorem lookupKey_append_self {α β : Type} [DecidableEq α]
    (l : List (α × β)) (k : α) (v : β) :
    (lookupKey (l ++ [(k, v)]) k).isSome := by
  induction l with
  | nil => simp [lookupKey]
  | cons e rest ih =>
    rw [List.cons_append, lookupKey]
    by_cases he : k = e.1
    · rw [if_pos he]; rfl
    · rw [if_neg he]; exact ih

/-! ## Lemmas: shapes of the proxy-trap effects -/

theorem markCurrentCallbacks_shape (st : St) (p : Path) (k : PKey) (st' : St)
    (h : markCurrentCallbacks st p k = Except.ok st') :
    ∃ cb sb, st' = { st with cbs := cb, cbSubs := sb } := by
  rw [markCurrentCallbacks] at h
  cases hb : lookupKey st.cbs p with
  | none => rw [hb] at h; exact absurd h (by simp)
  | some byKey =>
    rw [hb] at h
    simp only [pure, Except.pure, Except.ok.injEq] at h
    exact ⟨_, _, h.symm⟩

theorem ownKeys_ok (st : St) (p : Path) (st' : St) (ks : List String)
    (h : ownKeys st p = Except.ok (st', ks)) :
    (∃ cb sb, st' = { st with cbs := cb, cbSubs := sb }) ∧
    ∃ fr entries, nodeAt st.root p = some (MVal.obj fr entries) ∧
      ks = entries.map Prod.fst := by
  rw [ownKeys] at h
  cases hn : nodeAt st.root p with
  | none => rw [hn] at h; exact absurd h (by simp)
  | some node =>
    rw [hn] at h
    cases node with
    | scal s => exact absurd h (by simp)
    | snap a => exact absurd h (by simp)
    | obj fr entries =>
      simp only at h
      obtain ⟨st1, h1, h2⟩ := exceptBind_ok h
      obtain ⟨cb, sb, hshape⟩ := markCurrentCallbacks_shape st p PKey.ownKeysSym st1 h1
      simp only [pure, Except.pure, Except.ok.injEq, Prod.mk.injEq] at h2
      exact ⟨⟨cb, sb, by rw [← h2.1, hshape]⟩, fr, entries, rfl, h2.2.symm⟩

theorem makeReactiveWithParent_fst (st : St) (v : MVal) (p : Path) :
    (makeReactiveWithParent st v p).1 = st ∨
    (makeReactiveWithParent st v p).1 =
      { st with
          tracked := st.tracked ++ [p],
          snapC := setKey st.snapC p none,
          cbs := setKey st.cbs p [] } := by
  rw [makeReactiveWithParent]
  by_cases h1 : isMutable v = false
  · rw [if_pos h1]; exact Or.inl rfl
  · rw [if_neg h1]
    by_cases h2 : p ∈ st.tracked
    · rw [if_pos h2]; exact Or.inl rfl
    · rw [if_neg h2]; exact Or.inr rfl

theorem getTrap_shape (st : St) (p : Path) (k : String) (st' : St) (r : TVal)
    (h : getTrap st p k = Except.ok (st', r)) :
    st'.root = st.root ∧ st'.snapHeap = st.snapHeap ∧
    st'.snapNext = st.snapNext ∧ st'.invalidated = st.invalidated ∧
    st'.currentCbs = st.currentCbs ∧ st'.cbEnv = st.cbEnv ∧ st'.log = st.log ∧
    (st'.snapC = st.snapC ∨ st'.snapC = setKey st.snapC (p ++ [k]) none) ∧
    (st'.tracked = st.tracked ∨ st'.tracked = st.tracked ++ [p ++ [k]]) := by
  rw [getTrap] at h
  cases hn : nodeAt st.root p with
  | none => rw [hn] at h; exact absurd h (by simp)
  | some node =>
    rw [hn] at h
    cases node with
    | scal s => exact absurd h (by simp)
    | snap a => exact absurd h (by simp)
    | obj fr entries =>
      simp only at h
      by_cases hk : (lookupKey entries k).isNone
      · rw [if_pos hk] at h
        simp only [pure, Except.pure, Except.ok.injEq, Prod.mk.injEq] at h
        rw [← h.1]
        simp
      · rw [if_neg hk] at h
        obtain ⟨st1, h1, h2⟩ := exceptBind_ok h
        obtain ⟨cb, sb, hshape⟩ := markCurrentCallbacks_shape st p (PKey.prop k) st1 h1
        rcases makeReactiveWithParent_fst st1
          ((lookupKey entries k).getD (MVal.scal Scal.undef)) (p ++ [k]) with hm | hm <;>
        · cases hmk : makeReactiveWithParent st1
            ((lookupKey entries k).getD (MVal.scal Scal.undef)) (p ++ [k]) with
          | mk st2 res =>
            rw [hmk] at h2 hm
            simp only at h2 hm
            cases res with
            | plain w =>
              rw [if_neg (by simp)] at h2
              simp only [pure, Except.pure, Except.ok.injEq, Prod.mk.injEq] at h2
              rw [← h2.1, hm, hshape]
              simp
            | prox q =>
              by_cases hfr : fr = true
              · rw [if_pos (by simp [hfr])] at h2
                exact absurd h2 (by simp)
              · rw [if_neg (by simp [hfr])] at h2
                simp only [pure, Except.pure, Except.ok.injEq, Prod.mk.injEq] at h2
                rw [← h2.1, hm, hshape]
                simp

/-! ## Lemmas: takeSnapshot keeps snapshots frozen and cache slots valid -/

theorem takeSnapshot_frozen : ∀ n : Nat,
    (∀ st v st' r, heapFrozen st → snapDomOK st →
      takeSnapshot n st v = Except.ok (st', r) →
      heapFrozen st' ∧ snapDomOK st' ∧
      (∀ b, (lookupKey st.snapHeap b).isSome → (lookupKey st'.snapHeap b).isSome) ∧
      (∀ a, r = TVal.plain (MVal.snap a) → isMutableT v = true →
        (lookupKey st'.snapHeap a).isSome)) ∧
    (∀ st p ks st' es, heapFrozen st → snapDomOK st →
      takeSnapList n st p ks = Except.ok (st', es) →
      heapFrozen st' ∧ snapDomOK st' ∧
      (∀ b, (lookupKey st.snapHeap b).isSome → (lookupKey st'.snapHeap b).isSome)) := by
  intro n
  induction n with
  | zero =>
    constructor
    · intro st v st' r _ _ h
      rw [takeSnapshot] at h
      exact absurd h (by simp)
    · intro st p ks st' es hf hd h
      cases ks with
      | nil =>
        rw [takeSnapList] at h
        simp only [pure, Except.pure, Except.ok.injEq, Prod.mk.injEq] at h
        rw [← h.1]
        exact ⟨hf, hd, fun b hb => hb⟩
      | cons k ks =>
        rw [takeSnapList] at h
        obtain ⟨⟨st1, cv⟩, h1, h2⟩ := exceptBind_ok h
        obtain ⟨⟨st2, sv⟩, h3, h4⟩ := exceptBind_ok h2
        rw [takeSnapshot] at h3
        exact absurd h3 (by simp)
  | succ m ih =>
    have main : ∀ st v st' r, heapFrozen st → snapDomOK st →
        takeSnapshot (m + 1) st v = Except.ok (st', r) →
        heapFrozen st' ∧ snapDomOK st' ∧
        (∀ b, (lookupKey st.snapHeap b).isSome → (lookupKey st'.snapHeap b).isSome) ∧
        (∀ a, r = TVal.plain (MVal.snap a) → isMutableT v = true →
          (lookupKey st'.snapHeap a).isSome) := by
      intro st v st' r hf hd h
      cases v with
      | plain w =>
        rw [takeSnapshot] at h
        by_cases hm : isMutableT (TVal.plain w) = false
        · rw [if_pos hm] at h
          simp only [pure, Except.pure, Except.ok.injEq, Prod.mk.injEq] at h
          obtain ⟨h1, h2⟩ := h
          subst h1; subst h2
          exact ⟨hf, hd, fun b hb => hb, fun a ha hmut => absurd hm (by simp [hmut])⟩
        · rw [if_neg hm] at h
          exact absurd h (by simp)
      | prox p =>
        rw [takeSnapshot] at h
        rw [if_neg (by simp [isMutableT])] at h
        have hcs : (∃ a, lookupKey st.snapC p = some (some a)) ∨
            lookupKey st.snapC p = some none ∨ lookupKey st.snapC p = none := by
          cases lookupKey st.snapC p with
          | none => exact Or.inr (Or.inr rfl)
          | some o => cases o with
            | none => exact Or.inr (Or.inl rfl)
            | some a => exact Or.inl ⟨a, rfl⟩
        rcases hcs with ⟨a, hc⟩ | hc | hc
        · rw [hc] at h
          simp only [pure, Except.pure, Except.ok.injEq, Prod.mk.injEq] at h
          obtain ⟨h1, h2⟩ := h
          subst h1
          refine ⟨hf, hd, fun b hb => hb, ?_⟩
          intro a' ha' _
          rw [← h2] at ha'
          cases ha'
          exact hd _ (lookupKey_mem hc) a rfl
        · rw [hc] at h
          obtain ⟨⟨st1, ks⟩, h1, h2⟩ := exceptBind_ok h
          obtain ⟨⟨st2, entries⟩, h3, h4⟩ := exceptBind_ok h2
          obtain ⟨⟨cb, sb, hshape⟩, _⟩ := ownKeys_ok st p st1 ks h1
          have hf1 : heapFrozen st1 := by
            rw [hshape]; intro e he; exact hf e he
          have hd1 : snapDomOK st1 := by
            rw [hshape]; intro e he b hb; exact hd e he b hb
          obtain ⟨hf2, hd2, hmono2⟩ := ih.2 st1 p ks st2 entries hf1 hd1 h3
          simp only [pure, Except.pure, Except.ok.injEq, Prod.mk.injEq] at h4
          obtain ⟨h5, h6⟩ := h4
          rw [← h5]
          refine ⟨?_, ?_, ?_, ?_⟩
          · intro e he
            simp only at he
            rcases List.mem_append.mp he with h7 | h7
            · exact hf2 e h7
            · rw [List.mem_singleton] at h7
              subst h7
              rfl
          · intro e he b hb
            simp only at he ⊢
            rcases mem_setKey he with h7 | h7
            · rw [h7] at hb
              cases hb
              exact lookupKey_append_self _ _ _
            · have := hd2 e h7 b hb
              rw [lookupKey_append_left _ _ _ this]
              exact this
          · intro b hb
            simp only
            have hb2 : (lookupKey st2.snapHeap b).isSome := by
              apply hmono2
              rw [hshape]
              exact hb
            rw [lookupKey_append_left _ _ _ hb2]
            exact hb2
          · intro a' ha' _
            rw [← h6] at ha'
            cases ha'
            simp only
            exact lookupKey_append_self _ _ _
        · rw [hc] at h
          exact absurd h (by simp)
    refine ⟨main, ?_⟩
    intro st p ks
    induction ks generalizing st with
    | nil =>
      intro st' es hf hd h
      rw [takeSnapList] at h
      simp only [pure, Except.pure, Except.ok.injEq, Prod.mk.injEq] at h
      rw [← h.1]
      exact ⟨hf, hd, fun b hb => hb⟩
    | cons k ks ihks =>
      intro st' es hf hd h
      rw [takeSnapList] at h
      obtain ⟨⟨st1, cv⟩, h1, h2⟩ := exceptBind_ok h
      obtain ⟨⟨st2, sv⟩, h3, h4⟩ := exceptBind_ok h2
      simp only at h4
      obtain ⟨_, hheap1, _, _, _, _, _, hsc1, _⟩ := getTrap_shape st p k st1 cv h1
      have hf1 : heapFrozen st1 := by
        intro e he; rw [hheap1] at he; exact hf e he
      have hd1 : snapDomOK st1 := by
        intro e he b hb
        rw [hheap1]
        rcases hsc1 with hs | hs
        · rw [hs] at he; exact hd e he b hb
        · rw [hs] at he
          rcases mem_setKey he with h7 | h7
          · rw [h7] at hb; exact absurd hb (by simp)
          · exact hd e h7 b hb
      obtain ⟨hf2, hd2, hmono2, _⟩ := main st1 cv st2 sv hf1 hd1 h3
      have hsv2 : toSVal sv = none ∨ ∃ s, toSVal sv = some s := by
        cases toSVal sv with
        | none => exact Or.inl rfl
        | some s => exact Or.inr ⟨s, rfl⟩
      rcases hsv2 with hsv | ⟨s, hsv⟩
      · rw [hsv] at h4
        exact absurd h4 (by simp)
      · rw [hsv] at h4
        simp only at h4
        obtain ⟨⟨st3, rest⟩, h5, h6⟩ := exceptBind_ok h4
        obtain ⟨hf3, hd3, hmono3⟩ := ihks st2 st3 rest hf2 hd2 h5
        simp only [pure, Except.pure, Except.ok.injEq, Prod.mk.injEq] at h6
        rw [← h6.1]
        refine ⟨hf3, hd3, ?_⟩
        intro b hb
        apply hmono3
        apply hmono2
        rw [hheap1]
        exact hb

/-! ## Lemmas: effect shapes of writes, selector evaluation and callbacks -/

/-- Refined form of `invalidateCallbacks_ok`: the dirty set is extended on
the right and stays duplicate-free. -/
theorem invalidateCallbacks_shape (st st' : St) (p : Path) (k : PKey)
    (h : invalidateCallbacks st p k = Except.ok st') :
    ∃ ext, st' = { st with invalidated := st.invalidated ++ ext } ∧
      (st.invalidated.Nodup → (st.invalidated ++ ext).Nodup) := by
  rw [invalidateCallbacks] at h
  cases hb : lookupKey st.cbs p with
  | none => rw [hb] at h; exact absurd h (by simp)
  | some byKey =>
    rw [hb] at h
    simp only [Except.bind] at h
    cases hk : lookupKey byKey k with
    | none =>
      rw [hk] at h
      cases h
      exact ⟨[], by simp, by simpa using id⟩
    | some cset =>
      rw [hk] at h
      cases h
      obtain ⟨ext, hext, _⟩ := foldl_addIfAbsent_sub cset st.invalidated
      exact ⟨ext, by rw [← hext], fun hn => hext ▸ nodup_foldl_addIfAbsent _ _ hn⟩

/-- Everything a successful `set` trap does: the raw tree is updated, the
snapshot cache rewritten, and the dirty set extended by the subscribers of
the written key — plus, exactly when the key is new, the subscribers of the
`OWN_KEYS` pseudo-key.  The target cannot have been frozen. -/
theorem setTrap_ok (st st' : St) (p : Path) (k : String) (v : MVal)
    (fr : Bool) (entries : List (String × MVal))
    (hnode : nodeAt st.root p = some (MVal.obj fr entries))
    (h : setTrap st p k v = Except.ok st') :
    fr = false ∧
    ∃ sc ext,
      st' = { st with
                root := setAtPath st.root p k v,
                snapC := sc,
                invalidated := st.invalidated ++ ext } ∧
      (st.invalidated.Nodup → st'.invalidated.Nodup) ∧
      (∀ c : Nat, c ∈ st'.invalidated ↔ c ∈ st.invalidated ∨
        (lookupKey entries k = none ∧
          c ∈ ((lookupKey st.cbs p).bind
                (fun bk => lookupKey bk PKey.ownKeysSym)).getD []) ∨
        c ∈ ((lookupKey st.cbs p).bind
              (fun bk => lookupKey bk (PKey.prop k))).getD []) := by
  rw [setTrap] at h
  rw [hnode] at h
  simp only at h
  cases fr with
  | true =>
    exfalso
    simp only [Bool.not_true] at h
    by_cases hk : (lookupKey entries k).isNone
    · rw [if_pos hk] at h
      obtain ⟨st1, h1, h2⟩ := exceptBind_ok h
      try simp only at h2
      rw [if_neg Bool.false_ne_true] at h2
      obtain ⟨st2, h3, h4⟩ := exceptBind_ok h2
      try simp only at h4
      obtain ⟨st3, h5, h6⟩ := exceptBind_ok h4
      try simp only at h6
      rw [if_neg Bool.false_ne_true] at h6
      exact Except.noConfusion h6
    · rw [if_neg hk] at h
      obtain ⟨st1, h1, h2⟩ := exceptBind_ok h
      try simp only at h2
      rw [if_neg Bool.false_ne_true] at h2
      obtain ⟨st2, h3, h4⟩ := exceptBind_ok h2
      try simp only at h4
      obtain ⟨st3, h5, h6⟩ := exceptBind_ok h4
      try simp only at h6
      rw [if_neg Bool.false_ne_true] at h6
      exact Except.noConfusion h6
  | false =>
    refine ⟨rfl, ?_⟩
    simp only [Bool.not_false] at h
    by_cases hk : (lookupKey entries k).isNone
    · rw [if_pos hk] at h
      obtain ⟨st1, h1, h2⟩ := exceptBind_ok h
      try simp only at h2
      rw [if_pos trivial] at h2
      obtain ⟨st2, h3, h4⟩ := exceptBind_ok h2
      try simp only at h4
      obtain ⟨st3, h5, h6⟩ := exceptBind_ok h4
      try simp only at h6
      rw [if_pos trivial] at h6
      simp only [pure, Except.pure, Except.ok.injEq] at h6
      subst h6
      obtain ⟨ext1, hs1, hn1⟩ := invalidateCallbacks_shape st st1 p PKey.ownKeysSym h1
      obtain ⟨_, hm1⟩ := invalidateCallbacks_ok st st1 p PKey.ownKeysSym h1
      obtain ⟨sc, hs2⟩ := invalidateSnapshots_ok _ st2 p h3
      obtain ⟨ext2, hs3, hn3⟩ := invalidateCallbacks_shape st2 st3 p (PKey.prop k) h5
      obtain ⟨_, hm3⟩ := invalidateCallbacks_ok st2 st3 p (PKey.prop k) h5
      have hkn : lookupKey entries k = none := Option.isNone_iff_eq_none.mp hk
      have hinv2 : st2.invalidated = st.invalidated ++ ext1 := by rw [hs2, hs1]
      have hcbs2 : st2.cbs = st.cbs := by rw [hs2, hs1]
      have hinv3 : st3.invalidated = st2.invalidated ++ ext2 := by rw [hs3]
      refine ⟨sc, ext1 ++ ext2, ?_, ?_, ?_⟩
      · rw [hs3, hs2, hs1]
        simp [List.append_assoc]
      · intro hn
        rw [hinv3, hinv2]
        have h1n := hn1 hn
        have := hn3 (by rw [hinv2]; exact h1n)
        rw [hinv2] at this
        exact this
      · intro c
        have hmm3 := hm3 c
        rw [hcbs2, hinv2] at hmm3
        have hmm1 := hm1 c
        have hinv1 : st1.invalidated = st.invalidated ++ ext1 := by rw [hs1]
        rw [hinv1] at hmm1
        rw [hmm3, hmm1]
        simp only [hkn, true_and]
        tauto
    · rw [if_neg hk] at h
      obtain ⟨st1, h1, h2⟩ := exceptBind_ok h
      simp only [pure, Except.pure, Except.ok.injEq] at h1
      subst h1
      try simp only at h2
      rw [if_pos trivial] at h2
      obtain ⟨st2, h3, h4⟩ := exceptBind_ok h2
      try simp only at h4
      obtain ⟨st3, h5, h6⟩ := exceptBind_ok h4
      try simp only at h6
      rw [if_pos trivial] at h6
      simp only [pure, Except.pure, Except.ok.injEq] at h6
      subst h6
      obtain ⟨sc, hs2⟩ := invalidateSnapshots_ok _ st2 p h3
      obtain ⟨ext2, hs3, hn3⟩ := invalidateCallbacks_shape st2 st3 p (PKey.prop k) h5
      obtain ⟨_, hm3⟩ := invalidateCallbacks_ok st2 st3 p (PKey.prop k) h5
      have hkn : lookupKey entries k ≠ none := by
        simpa [Option.isNone_iff_eq_none] using hk
      have hinv2 : st2.invalidated = st.invalidated := by rw [hs2]
      have hcbs2 : st2.cbs = st.cbs := by rw [hs2]
      have hinv3 : st3.invalidated = st2.invalidated ++ ext2 := by rw [hs3]
      refine ⟨sc, ext2, ?_, ?_, ?_⟩
      · rw [hs3, hs2]
      · intro hn
        rw [hinv3, hinv2]
        have := hn3 (by rw [hinv2]; exact hn)
        rw [hinv2] at this
        exact this
      · intro c
        have hmm3 := hm3 c
        rw [hcbs2, hinv2] at hmm3
        rw [hmm3]
        constructor
        · rintro (hc | hc)
          · exact Or.inl hc
          · exact Or.inr (Or.inr hc)
        · rintro (hc | ⟨hc, _⟩ | hc)
          · exact Or.inl hc
          · exact absurd hc hkn
          · exact Or.inr hc

/-- Shape of a successful `deleteProperty`: the key is removed from the raw
tree, the snapshot cache rewritten, and the dirty set extended (by the
`OWN_KEYS` subscribers, per `deleteProperty_invalidated`). -/
theorem deleteProperty_shape (st st' : St) (p : Path) (k : String)
    (h : deleteProperty st p k = Except.ok st') :
    ∃ sc ext,
      st' = { st with
                root := removeAtPath st.root p k,
                snapC := sc,
                invalidated := st.invalidated ++ ext } ∧
      (st.invalidated.Nodup → st'.invalidated.Nodup) := by
  rw [deleteProperty] at h
  cases hn : nodeAt st.root p with
  | none => rw [hn] at h; exact absurd h (by simp)
  | some node =>
    rw [hn] at h
    cases node with
    | scal s => exact absurd h (by simp)
    | snap a => exact absurd h (by simp)
    | obj fr entries =>
      simp only at h
      by_cases hs : (fr && (lookupKey entries k).isSome) = true
      · exfalso
        rw [hs] at h
        simp only [Bool.not_true] at h
        rw [if_neg Bool.false_ne_true] at h
        obtain ⟨st1, h1, h2⟩ := exceptBind_ok h
        try simp only at h2
        obtain ⟨st2, h3, h4⟩ := exceptBind_ok h2
        try simp only at h4
        rw [if_neg Bool.false_ne_true] at h4
        exact Except.noConfusion h4
      · rw [Bool.not_eq_true] at hs
        rw [hs] at h
        simp only [Bool.not_false] at h
        rw [if_pos trivial] at h
        obtain ⟨st1, h1, h2⟩ := exceptBind_ok h
        try simp only at h2
        obtain ⟨st2, h3, h4⟩ := exceptBind_ok h2
        try simp only at h4
        rw [if_pos trivial] at h4
        simp only [pure, Except.pure, Except.ok.injEq] at h4
        subst h4
        obtain ⟨sc, hs1⟩ := invalidateSnapshots_ok _ st1 p h1
        obtain ⟨ext, hs3, hn3⟩ := invalidateCallbacks_shape st1 st2 p PKey.ownKeysSym h3
        have hinv1 : st1.invalidated = st.invalidated := by rw [hs1]
        refine ⟨sc, ext, ?_, ?_⟩
        · rw [hs3, hs1]
        · intro hn2
          have := hn3 (by rw [hinv1]; exact hn2)
          have hinv2 : st2.invalidated = st1.invalidated ++ ext := by rw [hs3]
          rw [hinv2, hinv1]
          rw [hinv1] at this
          exact this

/-- Selector evaluation only reads: the raw tree, the snapshot state, the
dirty set, the log, the current-callback set and the callback environment
are untouched (dependency bookkeeping and lazy wrapping do change). -/
theorem evalSel_shape : ∀ (e : Expr) (st : St) (rp : Path) (st' : St)
    (r : EvalRes), evalSel st rp e = Except.ok (st', r) →
    st'.root = st.root ∧ st'.snapHeap = st.snapHeap ∧
    st'.snapNext = st.snapNext ∧ st'.invalidated = st.invalidated ∧
    st'.log = st.log ∧ st'.currentCbs = st.currentCbs ∧
    st'.cbEnv = st.cbEnv := by
  intro e
  induction e with
  | root =>
    intro st rp st' r h
    rw [evalSel] at h
    simp only [pure, Except.pure, Except.ok.injEq, Prod.mk.injEq] at h
    rw [← h.1]
    exact ⟨rfl, rfl, rfl, rfl, rfl, rfl, rfl⟩
  | getKey e k ih =>
    intro st rp st' r h
    rw [evalSel] at h
    obtain ⟨⟨st1, r1⟩, h1, h2⟩ := exceptBind_ok h
    obtain ⟨hr, hsh, hsn, hi, hl, hc, he⟩ := ih st rp st1 r1 h1
    try simp only at h2
    cases r1 with
    | keyList l => exact absurd h2 (by simp)
    | v t =>
      cases t with
      | prox q =>
        obtain ⟨⟨st2, v2⟩, h3, h4⟩ := exceptBind_ok h2
        obtain ⟨hr2, hsh2, hsn2, hi2, hc2, he2, hl2, _, _⟩ :=
          getTrap_shape st1 q k st2 v2 h3
        simp only [pure, Except.pure, Except.ok.injEq, Prod.mk.injEq] at h4
        rw [← h4.1]
        exact ⟨hr2.trans hr, hsh2.trans hsh, hsn2.trans hsn, hi2.trans hi,
          hl2.trans hl, hc2.trans hc, he2.trans he⟩
      | plain m =>
        obtain ⟨v2, h3, h4⟩ := exceptBind_ok h2
        simp only [pure, Except.pure, Except.ok.injEq, Prod.mk.injEq] at h4
        rw [← h4.1]
        exact ⟨hr, hsh, hsn, hi, hl, hc, he⟩
  | getDyn e ke ih ihk =>
    intro st rp st' r h
    rw [evalSel] at h
    obtain ⟨⟨st1, r1⟩, h1, h2⟩ := exceptBind_ok h
    obtain ⟨hr, hsh, hsn, hi, hl, hc, he⟩ := ih st rp st1 r1 h1
    try simp only at h2
    obtain ⟨⟨st2, r2⟩, h3, h4⟩ := exceptBind_ok h2
    obtain ⟨hr2, hsh2, hsn2, hi2, hl2, hc2, he2⟩ := ihk st1 rp st2 r2 h3
    try simp only at h4
    cases r1 with
    | keyList l =>
      cases r2 <;> exact absurd h4 (by simp)
    | v t =>
      cases r2 with
      | keyList l =>
        cases t <;> exact absurd h4 (by simp)
      | v t2 =>
        have base : st2.root = st.root ∧ st2.snapHeap = st.snapHeap ∧
            st2.snapNext = st.snapNext ∧ st2.invalidated = st.invalidated ∧
            st2.log = st.log ∧ st2.currentCbs = st.currentCbs ∧
            st2.cbEnv = st.cbEnv :=
          ⟨hr2.trans hr, hsh2.trans hsh, hsn2.trans hsn, hi2.trans hi,
            hl2.trans hl, hc2.trans hc, he2.trans he⟩
        cases t2 with
        | prox q2 => cases t <;> exact absurd h4 (by simp)
        | plain m2 =>
          cases m2 with
          | scal sc2 =>
            cases sc2 with
            | str ks =>
              cases t with
              | prox q =>
                obtain ⟨⟨st3, v3⟩, h5, h6⟩ := exceptBind_ok h4
                obtain ⟨hr3, hsh3, hsn3, hi3, hc3, he3, hl3, _, _⟩ :=
                  getTrap_shape st2 q ks st3 v3 h5
                simp only [pure, Except.pure, Except.ok.injEq, Prod.mk.injEq] at h6
                rw [← h6.1]
                exact ⟨hr3.trans base.1, hsh3.trans base.2.1, hsn3.trans base.2.2.1,
                  hi3.trans base.2.2.2.1, hl3.trans base.2.2.2.2.1,
                  hc3.trans base.2.2.2.2.2.1, he3.trans base.2.2.2.2.2.2⟩
              | plain m =>
                obtain ⟨v3, h5, h6⟩ := exceptBind_ok h4
                simp only [pure, Except.pure, Except.ok.injEq, Prod.mk.injEq] at h6
                rw [← h6.1]
                exact base
            | undef => cases t <;> exact absurd h4 (by simp)
            | null => cases t <;> exact absurd h4 (by simp)
            | num x => cases t <;> exact absurd h4 (by simp)
            | bool b => cases t <;> exact absurd h4 (by simp)
          | snap a => cases t <;> exact absurd h4 (by simp)
          | obj fr es => cases t <;> exact absurd h4 (by simp)
  | objKeys e ih =>
    intro st rp st' r h
    rw [evalSel] at h
    obtain ⟨⟨st1, r1⟩, h1, h2⟩ := exceptBind_ok h
    obtain ⟨hr, hsh, hsn, hi, hl, hc, he⟩ := ih st rp st1 r1 h1
    try simp only at h2
    cases r1 with
    | keyList l => exact absurd h2 (by simp)
    | v t =>
      cases t with
      | prox q =>
        obtain ⟨⟨st2, ks2⟩, h3, h4⟩ := exceptBind_ok h2
        obtain ⟨⟨cb, sb, hshape⟩, _⟩ := ownKeys_ok st1 q st2 ks2 h3
        simp only [pure, Except.pure, Except.ok.injEq, Prod.mk.injEq] at h4
        rw [← h4.1, hshape]
        exact ⟨hr, hsh, hsn, hi, hl, hc, he⟩
      | plain m =>
        obtain ⟨ks2, h3, h4⟩ := exceptBind_ok h2
        simp only [pure, Except.pure, Except.ok.injEq, Prod.mk.injEq] at h4
        rw [← h4.1]
        exact ⟨hr, hsh, hsn, hi, hl, hc, he⟩

theorem removeSub_shape (st : St) (c : Nat) (pr : Path × PKey) (st' : St)
    (h : removeSub st c pr = Except.ok st') :
    ∃ cb, st' = { st with cbs := cb } := by
  rw [removeSub] at h
  cases hb : lookupKey st.cbs pr.1 with
  | none => rw [hb] at h; exact absurd h (by simp)
  | some byKey =>
    rw [hb] at h
    simp only at h
    cases hk : lookupKey byKey pr.2 with
    | none =>
      rw [hk] at h
      simp only [pure, Except.pure, Except.ok.injEq] at h
      exact ⟨st.cbs, by rw [← h]⟩
    | some cset =>
      rw [hk] at h
      simp only [pure, Except.pure, Except.ok.injEq] at h
      exact ⟨_, h.symm⟩

theorem removeSubs_shape : ∀ (pairs : List (Path × PKey)) (st st' : St) (c : Nat),
    pairs.foldlM (fun st pr => removeSub st c pr) st = Except.ok st' →
    ∃ cb, st' = { st with cbs := cb } := by
  intro pairs
  induction pairs with
  | nil =>
    intro st st' c h
    simp only [List.foldlM, pure, Except.pure, Except.ok.injEq] at h
    exact ⟨st.cbs, by rw [← h]⟩
  | cons pr rest ih =>
    intro st st' c h
    rw [List.foldlM_cons] at h
    obtain ⟨st1, h1, h2⟩ := exceptBind_ok h
    obtain ⟨cb1, hs1⟩ := removeSub_shape st c pr st1 h1
    obtain ⟨cb2, hs2⟩ := ih st1 st' c h2
    exact ⟨cb2, by rw [hs2, hs1]⟩

/-- Shape of one mutator/callback action. -/
theorem runAct_shape (st st' : St) (a : Act)
    (h : runAct st a = Except.ok st') :
    st'.snapHeap = st.snapHeap ∧ st'.snapNext = st.snapNext ∧
    st'.cbs = st.cbs ∧ st'.cbSubs = st.cbSubs ∧
    st'.currentCbs = st.currentCbs ∧ st'.cbEnv = st.cbEnv ∧
    st'.log = st.log ∧ st'.tracked = st.tracked ∧
    (∃ ext, st'.invalidated = st.invalidated ++ ext) ∧
    (st.invalidated.Nodup → st'.invalidated.Nodup) := by
  cases a with
  | aset p k v =>
    rw [runAct] at h
    cases hn : nodeAt st.root p with
    | none => rw [setTrap, hn] at h; exact absurd h (by simp)
    | some node =>
      cases node with
      | scal s => rw [setTrap, hn] at h; exact absurd h (by simp)
      | snap a => rw [setTrap, hn] at h; exact absurd h (by simp)
      | obj fr entries =>
        obtain ⟨_, sc, ext, hs, hnd, _⟩ := setTrap_ok st st' p k v fr entries hn h
        rw [hs] at hnd ⊢
        exact ⟨rfl, rfl, rfl, rfl, rfl, rfl, rfl, rfl, ⟨ext, rfl⟩,
          fun hn2 => hnd hn2⟩
  | adel p k =>
    rw [runAct] at h
    obtain ⟨sc, ext, hs, hnd⟩ := deleteProperty_shape st st' p k h
    rw [hs] at hnd ⊢
    exact ⟨rfl, rfl, rfl, rfl, rfl, rfl, rfl, rfl, ⟨ext, rfl⟩,
      fun hn2 => hnd hn2⟩

/-- Shape of a whole mutator run. -/
theorem runActs_shape : ∀ (acts : List Act) (st st' : St),
    acts.foldlM runAct st = Except.ok st' →
    st'.snapHeap = st.snapHeap ∧ st'.snapNext = st.snapNext ∧
    st'.cbs = st.cbs ∧ st'.cbSubs = st.cbSubs ∧
    st'.currentCbs = st.currentCbs ∧ st'.cbEnv = st.cbEnv ∧
    st'.log = st.log ∧ st'.tracked = st.tracked ∧
    (∃ ext, st'.invalidated = st.invalidated ++ ext) ∧
    (st.invalidated.Nodup → st'.invalidated.Nodup) := by
  intro acts
  induction acts with
  | nil =>
    intro st st' h
    simp only [List.foldlM, pure, Except.pure, Except.ok.injEq] at h
    subst h
    exact ⟨rfl, rfl, rfl, rfl, rfl, rfl, rfl, rfl, ⟨[], by simp⟩, id⟩
  | cons a rest ih =>
    intro st st' h
    rw [List.foldlM_cons] at h
    obtain ⟨st1, h1, h2⟩ := exceptBind_ok h
    obtain ⟨e1, e2, e3, e4, e5, e6, e7, e8, ⟨x1, hx1⟩, hnd1⟩ := runAct_shape st st1 a h1
    obtain ⟨f1, f2, f3, f4, f5, f6, f7, f8, ⟨x2, hx2⟩, hnd2⟩ := ih st1 st' h2
    refine ⟨f1.trans e1, f2.trans e2, f3.trans e3, f4.trans e4, f5.trans e5,
      f6.trans e6, f7.trans e7, f8.trans e8, ⟨x1 ++ x2, ?_⟩, ?_⟩
    · rw [hx2, hx1, List.append_assoc]
    · intro hn
      exact hnd2 (hnd1 hn)

/-- Shape of one callback invocation (`newCallback` of `subscribe`): the log
records the invocation, the dirty set is only extended (and not at all when
every callback in the environment performs no mutation), and the callback
environment is untouched. -/
theorem runCallback_shape (st st' : St) (c : Nat)
    (h : runCallback st c = Except.ok st') :
    st'.cbEnv = st.cbEnv ∧ st'.snapHeap = st.snapHeap ∧
    st'.snapNext = st.snapNext ∧
    st'.log = st.log ++ [c] ∧
    (∃ ext, st'.invalidated = st.invalidated ++ ext) ∧
    (st.invalidated.Nodup → st'.invalidated.Nodup) ∧
    ((∀ e ∈ st.cbEnv, e.2.acts = []) → st'.invalidated = st.invalidated) := by
  rw [runCallback] at h
  cases henv : lookupKey st.cbEnv c with
  | none => rw [henv] at h; exact absurd h (by simp)
  | some spec =>
    rw [henv] at h
    simp only at h
    obtain ⟨st1, h1, h2⟩ := exceptBind_ok h
    obtain ⟨cb1, hs1⟩ := removeSubs_shape _ st st1 c h1
    try simp only at h2
    obtain ⟨⟨st3, r⟩, h3, h4⟩ := exceptBind_ok h2
    obtain ⟨g1, g2, g3, g4, g5, g6, g7⟩ := evalSel_shape spec.sel _ spec.rootPath st3 r h3
    try simp only at h4
    obtain ⟨a1, a2, a3, a4, a5, a6, a7, a8, ⟨ext, hext⟩, hnd⟩ := runActs_shape spec.acts _ st' h4
    have hinv1 : st1.invalidated = st.invalidated := by rw [hs1]
    have henv1 : st1.cbEnv = st.cbEnv := by rw [hs1]
    have hlog1 : st1.log = st.log := by rw [hs1]
    refine ⟨?_, ?_, ?_, ?_, ⟨ext, ?_⟩, ?_, ?_⟩
    · rw [a6]; simpa using g7.trans henv1
    · rw [a1]; simpa using g2.trans (by rw [hs1])
    · rw [a2]; simpa using g3.trans (by rw [hs1])
    · rw [a7]
      simp only
      rw [g5]
      simpa using hlog1
    · rw [hext]
      simp only
      rw [g4]
      simpa using hinv1
    · intro hn
      apply hnd
      simp only
      rw [g4]
      rw [hinv1.symm] at hn
      simpa using hn
    · intro hpure
      have hacts : spec.acts = [] := hpure (c, spec) (lookupKey_mem henv)
      rw [hacts] at h4
      simp only [List.foldlM, pure, Except.pure, Except.ok.injEq] at h4
      rw [← h4]
      simp only
      rw [g4]
      simpa using hinv1

/-- The flush loop of `notifySubscribers` (core.ts lines 270-275): on
success the final state comes from a state `fin` reached when the iteration
index passes the end of the dirty list, whose dirty set is then cleared.
The dirty list only grows during the flush (JS `Set` iteration visits
elements added during iteration), stays duplicate-free (`Set` add is
idempotent, so nobody is queued twice), and the invocation log gains
exactly its elements from position `i` on, in order.  When no callback in
the environment mutates anything, the dirty list does not grow at all. -/
theorem flushLoop_spec : ∀ (n i : Nat) (st st' : St),
    flushLoop n st i = Except.ok st' →
    st.invalidated.Nodup →
    ∃ fin : St,
      st' = { fin with invalidated := [] } ∧
      fin.cbEnv = st.cbEnv ∧
      fin.invalidated.Nodup ∧
      (∃ ext, fin.invalidated = st.invalidated ++ ext) ∧
      fin.log = st.log ++ fin.invalidated.drop i ∧
      ((∀ e ∈ st.cbEnv, e.2.acts = []) → fin.invalidated = st.invalidated) := by
  intro n
  induction n with
  | zero =>
    intro i st st' h
    rw [flushLoop] at h
    exact absurd h (by simp)
  | succ n ih =>
    intro i st st' h hnd
    rw [flushLoop] at h
    by_cases hlt : i < st.invalidated.length
    · rw [dif_pos hlt] at h
      obtain ⟨st1, h1, h2⟩ := exceptBind_ok h
      obtain ⟨henv1, hheap1, hnext1, hlog1, ⟨ext1, hext1⟩, hnd1, hpure1⟩ :=
        runCallback_shape st st1 _ h1
      obtain ⟨fin, hfin, henv2, hnd2, ⟨ext2, hext2⟩, hlog2, hpure2⟩ :=
        ih (i + 1) st1 st' h2 (hnd1 hnd)
      have hfi : fin.invalidated = st.invalidated ++ (ext1 ++ ext2) := by
        rw [hext2, hext1, List.append_assoc]
      refine ⟨fin, hfin, henv2.trans henv1, hnd2, ⟨ext1 ++ ext2, hfi⟩, ?_, ?_⟩
      · have hlen : i < fin.invalidated.length := by
          rw [hfi]
          simp only [List.length_append]
          omega
        have hdrop : fin.invalidated.drop i =
            st.invalidated.get ⟨i, hlt⟩ :: fin.invalidated.drop (i + 1) := by
          rw [List.drop_eq_getElem_cons hlen]
          have hget : fin.invalidated[i] = st.invalidated.get ⟨i, hlt⟩ := by
            rw [List.getElem_of_eq hfi hlen]
            rw [List.getElem_append_left hlt]
            simp [List.get_eq_getElem]
          rw [hget]
        rw [hdrop, hlog2, hlog1]
        simp
      · intro hp
        have hst1 : st1.invalidated = st.invalidated := hpure1 hp
        have hfin1 : fin.invalidated = st1.invalidated := by
          apply hpure2
          rw [henv1]
          exact hp
        rw [hfin1, hst1]
    · rw [dif_neg hlt] at h
      simp only [pure, Except.pure, Except.ok.injEq] at h
      refine ⟨st, h.symm, rfl, hnd, ⟨[], by simp⟩, ?_, fun _ => rfl⟩
      rw [List.drop_eq_nil_of_le (le_of_not_lt hlt)]
      simp

/-! ## Lemmas: the snapshot cache across reads, writes and rebuilds -/

theorem lookupKey_append_fresh {β : Type} (l : List (Nat × β)) (a : Nat) (v : β)
    (h : ∀ e ∈ l, e.1 ≠ a) : lookupKey (l ++ [(a, v)]) a = some v := by
  induction l with
  | nil => simp [lookupKey]
  | cons e rest ih =>
    rw [List.cons_append, lookupKey]
    rw [if_neg (Ne.symm (h e (List.mem_cons_self e rest)))]
    exact ih (fun x hx => h x (List.mem_cons_of_mem _ hx))

theorem isMutable_setAtPath (fr : Bool) (e : List (String × MVal)) (p : Path)
    (k : String) (v : MVal) :
    isMutable (setAtPath (MVal.obj fr e) p k v) = true := by
  cases p with
  | nil => rfl
  | cons q rest =>
    rw [setAtPath]
    cases lookupKey e q <;> rfl

theorem makeReactiveWithParent_cases (st : St) (v : MVal) (p : Path) :
    (makeReactiveWithParent st v p).1 = st ∨
    (p ∉ st.tracked ∧
      (makeReactiveWithParent st v p).1 =
        { st with
            tracked := st.tracked ++ [p],
            snapC := setKey st.snapC p none,
            cbs := setKey st.cbs p [] }) := by
  rw [makeReactiveWithParent]
  by_cases h1 : isMutable v = false
  · rw [if_pos h1]; exact Or.inl rfl
  · rw [if_neg h1]
    by_cases h2 : p ∈ st.tracked
    · rw [if_pos h2]; exact Or.inl rfl
    · rw [if_neg h2]; exact Or.inr ⟨h2, rfl⟩

/-- The `get` trap either leaves the snapshot cache and the wrapped set
alone, or first-wraps its result: an untracked child position gets wrapped,
with an empty snapshot slot. -/
theorem getTrap_track (st : St) (p : Path) (k : String) (st' : St) (r : TVal)
    (h : getTrap st p k = Except.ok (st', r)) :
    (st'.snapC = st.snapC ∧ st'.tracked = st.tracked) ∨
    (p ++ [k] ∉ st.tracked ∧
      st'.snapC = setKey st.snapC (p ++ [k]) none ∧
      st'.tracked = st.tracked ++ [p ++ [k]]) := by
  rw [getTrap] at h
  cases hn : nodeAt st.root p with
  | none => rw [hn] at h; exact absurd h (by simp)
  | some node =>
    rw [hn] at h
    cases node with
    | scal s => exact absurd h (by simp)
    | snap a => exact absurd h (by simp)
    | obj fr entries =>
      simp only at h
      by_cases hk : (lookupKey entries k).isNone
      · rw [if_pos hk] at h
        simp only [pure, Except.pure, Except.ok.injEq, Prod.mk.injEq] at h
        rw [← h.1]
        exact Or.inl ⟨rfl, rfl⟩
      · rw [if_neg hk] at h
        obtain ⟨st1, h1, h2⟩ := exceptBind_ok h
        obtain ⟨cb, sb, hshape⟩ := markCurrentCallbacks_shape st p (PKey.prop k) st1 h1
        have htr1 : st1.tracked = st.tracked := by rw [hshape]
        have hsc1 : st1.snapC = st.snapC := by rw [hshape]
        rcases makeReactiveWithParent_cases st1
          ((lookupKey entries k).getD (MVal.scal Scal.undef)) (p ++ [k]) with
          hm | ⟨hnt, hm⟩
        · cases hmk : makeReactiveWithParent st1
              ((lookupKey entries k).getD (MVal.scal Scal.undef)) (p ++ [k]) with
          | mk st2 res2 =>
            rw [hmk] at h2 hm
            simp only at h2 hm
            cases res2 with
            | plain w =>
              rw [if_neg (by simp)] at h2
              simp only [pure, Except.pure, Except.ok.injEq, Prod.mk.injEq] at h2
              rw [← h2.1, hm]
              exact Or.inl ⟨hsc1, htr1⟩
            | prox q =>
              by_cases hfr : fr = true
              · rw [if_pos (by simp [hfr])] at h2
                exact absurd h2 (by simp)
              · rw [if_neg (by simp [hfr])] at h2
                simp only [pure, Except.pure, Except.ok.injEq, Prod.mk.injEq] at h2
                rw [← h2.1, hm]
                exact Or.inl ⟨hsc1, htr1⟩
        · cases hmk : makeReactiveWithParent st1
              ((lookupKey entries k).getD (MVal.scal Scal.undef)) (p ++ [k]) with
          | mk st2 res2 =>
            rw [hmk] at h2 hm
            simp only at h2 hm
            have hnt' : p ++ [k] ∉ st.tracked := by rw [← htr1]; exact hnt
            cases res2 with
            | plain w =>
              rw [if_neg (by simp)] at h2
              simp only [pure, Except.pure, Except.ok.injEq, Prod.mk.injEq] at h2
              rw [← h2.1, hm]
              exact Or.inr ⟨hnt', by rw [hsc1], by rw [htr1]⟩
            | prox q =>
              by_cases hfr : fr = true
              · rw [if_pos (by simp [hfr])] at h2
                exact absurd h2 (by simp)
              · rw [if_neg (by simp [hfr])] at h2
                simp only [pure, Except.pure, Except.ok.injEq, Prod.mk.injEq] at h2
                rw [← h2.1, hm]
                exact Or.inr ⟨hnt', by rw [hsc1], by rw [htr1]⟩

/-- Reading an existing mutable (structured) field of a non-frozen object
yields the proxy of the child position. -/
theorem getTrap_mutable (st : St) (p : Path) (k : String) (st' : St) (r : TVal)
    (entries : List (String × MVal)) (w : MVal)
    (hn : nodeAt st.root p = some (MVal.obj false entries))
    (hk : lookupKey entries k = some w) (hw : isMutable w = true)
    (h : getTrap st p k = Except.ok (st', r)) :
    r = TVal.prox (p ++ [k]) := by
  rw [getTrap, hn] at h
  simp only at h
  rw [hk] at h
  simp only [Option.isNone_some, Option.getD_some] at h
  rw [if_neg Bool.false_ne_true] at h
  obtain ⟨st1, h1, h2⟩ := exceptBind_ok h
  try simp only at h2
  cases hmk : makeReactiveWithParent st1 w (p ++ [k]) with
  | mk st2 res2 =>
    rw [hmk] at h2
    simp only [Bool.false_and] at h2
    rw [if_neg Bool.false_ne_true] at h2
    simp only [pure, Except.pure, Except.ok.injEq, Prod.mk.injEq] at h2
    have hres : res2 = TVal.prox (p ++ [k]) := by
      rw [makeReactiveWithParent] at hmk
      rw [if_neg (by simp [hw])] at hmk
      by_cases hmem : (p ++ [k]) ∈ st1.tracked
      · rw [if_pos hmem] at hmk
        cases hmk
        rfl
      · rw [if_neg hmem] at hmk
        cases hmk
        rfl
    rw [← h2.2, hres]

/-- A proxy with a live cached snapshot: `takeSnapshot` returns the cached
snapshot unchanged and touches nothing. -/
theorem takeSnapshot_cached (n : Nat) (st : St) (p : Path) (a : Nat)
    (ha : lookupKey st.snapC p = some (some a)) :
    takeSnapshot (n + 1) st (TVal.prox p) =
      Except.ok (st, TVal.plain (MVal.snap a)) := by
  rw [takeSnapshot]
  try simp only [isMutableT]
  rw [if_neg (by simp [isMutableT])]
  try simp only
  rw [ha]
  rfl

theorem SnapExt_refl (st : St) : SnapExt st st :=
  ⟨rfl, le_rfl, fun _ _ h => h, fun _ _ _ h => h, fun _ h => h, id, id⟩

theorem SnapExt_trans {st1 st2 st3 : St} (h1 : SnapExt st1 st2)
    (h2 : SnapExt st2 st3) : SnapExt st1 st3 := by
  obtain ⟨a1, a2, a3, a4, a5, a6, a7⟩ := h1
  obtain ⟨b1, b2, b3, b4, b5, b6, b7⟩ := h2
  refine ⟨b1.trans a1, a2.trans b2, fun a o h => b3 a o (a3 a o h),
    fun hco q a h => b4 (a6 hco) q a (a4 hco q a h),
    fun q h => b5 q (a5 q h), fun hco => b6 (a6 hco), fun hl => b7 (a7 hl)⟩

theorem SnapExt_of_cbs {st st' : St} {cb : List (Path × List (PKey × List Nat))}
    {sb : List (Nat × List (Path × PKey))}
    (h : st' = { st with cbs := cb, cbSubs := sb }) : SnapExt st st' := by
  subst h
  exact ⟨rfl, le_rfl, fun _ _ h => h, fun _ _ _ h => h, fun _ h => h, id, id⟩

/-- The `get` trap respects `SnapExt`: a first wrap adds an empty (not live)
cache slot for a previously unwrapped position and tracks it. -/
theorem getTrap_ext (st : St) (p : Path) (k : String) (st' : St) (r : TVal)
    (h : getTrap st p k = Except.ok (st', r)) : SnapExt st st' := by
  obtain ⟨hroot, hheap, hnext, _, _, _, _, _, _⟩ := getTrap_shape st p k st' r h
  rcases getTrap_track st p k st' r h with ⟨hsc, htr⟩ | ⟨hnt, hsc, htr⟩
  · exact ⟨hroot, le_of_eq hnext.symm, fun a o ho => by rw [hheap]; exact ho,
      fun _ q a ha => by rw [hsc]; exact ha, fun q hq => by rw [htr]; exact hq,
      fun hco q hq => by
        rw [htr]
        apply hco
        rw [← hsc]
        exact hq,
      fun hl e he => by
        rw [hnext]
        apply hl
        rw [← hheap]
        exact he⟩
  · refine ⟨hroot, le_of_eq hnext.symm, fun a o ho => by rw [hheap]; exact ho,
      ?_, fun q hq => by rw [htr]; exact List.mem_append_left _ hq, ?_, ?_⟩
    · intro hco q a ha
      have hne : q ≠ p ++ [k] := by
        intro he
        exact hnt (he ▸ hco q (by rw [ha]; rfl))
      rw [hsc, lookupKey_setKey_ne _ _ _ _ hne]
      exact ha
    · intro hco q hq
      rw [htr]
      by_cases hqe : q = p ++ [k]
      · subst hqe
        exact List.mem_append_right _ (List.mem_singleton.mpr rfl)
      · rw [hsc, lookupKey_setKey_ne _ _ _ _ hqe] at hq
        exact List.mem_append_left _ (hco q hq)
    · intro hl e he
      rw [hnext]
      apply hl
      rw [← hheap]
      exact he

/-- `takeSnapshot` and its per-key loop respect `SnapExt`: taking a snapshot
reads through the traps, allocates fresh snapshot objects and fills
tombstoned or missing cache slots, but never disturbs the raw tree, existing
snapshot objects, or live cache slots. -/
theorem takeSnapshot_mono : ∀ n : Nat,
    (∀ st v st' r, takeSnapshot n st v = Except.ok (st', r) → SnapExt st st') ∧
    (∀ st p ks st' es, takeSnapList n st p ks = Except.ok (st', es) →
      SnapExt st st') := by
  intro n
  induction n with
  | zero =>
    constructor
    · intro st v st' r h
      rw [takeSnapshot] at h
      exact absurd h (by simp)
    · intro st p ks st' es h
      cases ks with
      | nil =>
        rw [takeSnapList] at h
        simp only [pure, Except.pure, Except.ok.injEq, Prod.mk.injEq] at h
        rw [← h.1]
        exact SnapExt_refl st
      | cons k ks =>
        rw [takeSnapList] at h
        obtain ⟨⟨st1, cv⟩, h1, h2⟩ := exceptBind_ok h
        obtain ⟨⟨st2, sv⟩, h3, h4⟩ := exceptBind_ok h2
        rw [takeSnapshot] at h3
        exact absurd h3 (by simp)
  | succ m ih =>
    have main : ∀ st v st' r, takeSnapshot (m + 1) st v = Except.ok (st', r) →
        SnapExt st st' := by
      intro st v st' r h
      cases v with
      | plain w =>
        rw [takeSnapshot] at h
        by_cases hm : isMutableT (TVal.plain w) = false
        · rw [if_pos hm] at h
          simp only [pure, Except.pure, Except.ok.injEq, Prod.mk.injEq] at h
          rw [← h.1]
          exact SnapExt_refl st
        · rw [if_neg hm] at h
          exact absurd h (by simp)
      | prox p =>
        rw [takeSnapshot] at h
        rw [if_neg (by simp [isMutableT])] at h
        have hcs : (∃ a, lookupKey st.snapC p = some (some a)) ∨
            lookupKey st.snapC p = some none ∨ lookupKey st.snapC p = none := by
          cases lookupKey st.snapC p with
          | none => exact Or.inr (Or.inr rfl)
          | some o => cases o with
            | none => exact Or.inr (Or.inl rfl)
            | some a => exact Or.inl ⟨a, rfl⟩
        rcases hcs with ⟨a, hc⟩ | hc | hc
        · rw [hc] at h
          simp only [pure, Except.pure, Except.ok.injEq, Prod.mk.injEq] at h
          rw [← h.1]
          exact SnapExt_refl st
        · rw [hc] at h
          obtain ⟨⟨st1, ks⟩, h1, h2⟩ := exceptBind_ok h
          obtain ⟨⟨stm, es⟩, h3, h4⟩ := exceptBind_ok h2
          obtain ⟨⟨cb, sb, hshape⟩, _⟩ := ownKeys_ok st p st1 ks h1
          have hext1 : SnapExt st stm :=
            SnapExt_trans (SnapExt_of_cbs hshape) (ih.2 st1 p ks stm es h3)
          simp only [pure, Except.pure, Except.ok.injEq, Prod.mk.injEq] at h4
          obtain ⟨e1, e2, e3, e4, e5, e6, e7⟩ := hext1
          rw [← h4.1]
          refine ⟨e1, ?_, ?_, ?_, e5, ?_, ?_⟩
          · simp only
            exact e2.trans (Nat.le_succ _)
          · intro a o ho
            simp only
            have := e3 a o ho
            rw [lookupKey_append_left _ _ _ (by rw [this]; rfl)]
            exact this
          · intro hco q a ha
            simp only
            have hne : q ≠ p := by
              intro he
              rw [he, hc] at ha
              exact Option.noConfusion (Option.some.inj ha)
            rw [lookupKey_setKey_ne _ _ _ _ hne]
            exact e4 hco q a ha
          · intro hco q hq
            simp only at hq ⊢
            by_cases hqe : q = p
            · subst hqe
              exact e5 q (hco q (by rw [hc]; rfl))
            · rw [lookupKey_setKey_ne _ _ _ _ hqe] at hq
              exact e6 hco q hq
          · intro hl e he
            simp only at he ⊢
            rcases List.mem_append.mp he with h7 | h7
            · exact Nat.lt_succ_of_lt (e7 hl e h7)
            · rw [List.mem_singleton] at h7
              subst h7
              exact Nat.lt_succ_self _
        · rw [hc] at h
          exact absurd h (by simp)
    refine ⟨main, ?_⟩
    intro st p ks
    induction ks generalizing st with
    | nil =>
      intro st' es h
      rw [takeSnapList] at h
      simp only [pure, Except.pure, Except.ok.injEq, Prod.mk.injEq] at h
      rw [← h.1]
      exact SnapExt_refl st
    | cons k ks ihks =>
      intro st' es h
      rw [takeSnapList] at h
      obtain ⟨⟨st1, cv⟩, h1, h2⟩ := exceptBind_ok h
      obtain ⟨⟨st2, sv⟩, h3, h4⟩ := exceptBind_ok h2
      simp only at h4
      have hx1 : SnapExt st st1 := getTrap_ext st p k st1 cv h1
      have hx2 : SnapExt st1 st2 := main st1 cv st2 sv h3
      have hsv2 : toSVal sv = none ∨ ∃ s, toSVal sv = some s := by
        cases toSVal sv with
        | none => exact Or.inl rfl
        | some s => exact Or.inr ⟨s, rfl⟩
      rcases hsv2 with hsv | ⟨s, hsv⟩
      · rw [hsv] at h4
        exact absurd h4 (by simp)
      · rw [hsv] at h4
        simp only at h4
        obtain ⟨⟨st3, rest⟩, h5, h6⟩ := exceptBind_ok h4
        have hx3 : SnapExt st2 st3 := ihks st2 st3 rest h5
        simp only [pure, Except.pure, Except.ok.injEq, Prod.mk.injEq] at h6
        rw [← h6.1]
        exact SnapExt_trans hx1 (SnapExt_trans hx2 hx3)

/-- A proxy with a tombstoned cache slot: `takeSnapshot` rebuilds, returning
a snapshot at a fresh address (at or above the current allocator mark) and
caching it live for the proxy. -/
theorem takeSnapshot_fresh (n : Nat) (st : St) (p : Path) (st' : St) (r : TVal)
    (ht : lookupKey st.snapC p = some none)
    (h : takeSnapshot n st (TVal.prox p) = Except.ok (st', r)) :
    ∃ a, r = TVal.plain (MVal.snap a) ∧ st.snapNext ≤ a ∧
      lookupKey st'.snapC p = some (some a) ∧ st'.snapNext = a + 1 ∧
      SnapExt st st' := by
  have hext : SnapExt st st' := (takeSnapshot_mono n).1 st _ st' r h
  cases n with
  | zero =>
    rw [takeSnapshot] at h
    exact absurd h (by simp)
  | succ m =>
    rw [takeSnapshot] at h
    rw [if_neg (by simp [isMutableT])] at h
    rw [ht] at h
    try simp only at h
    obtain ⟨⟨st1, ks⟩, h1, h2⟩ := exceptBind_ok h
    obtain ⟨⟨stm, es⟩, h3, h4⟩ := exceptBind_ok h2
    obtain ⟨⟨cb, sb, hshape⟩, _⟩ := ownKeys_ok st p st1 ks h1
    have hmid : SnapExt st stm :=
      SnapExt_trans (SnapExt_of_cbs hshape) ((takeSnapshot_mono m).2 st1 p ks stm es h3)
    simp only [pure, Except.pure, Except.ok.injEq, Prod.mk.injEq] at h4
    refine ⟨stm.snapNext, h4.2.symm, hmid.2.1, ?_, ?_, hext⟩
    · rw [← h4.1]
      simp only
      exact lookupKey_setKey_self _ _ _
    · rw [← h4.1]

theorem prefix_dropLast_of_ne {α : Type} {q p : List α} (h : q <+: p)
    (hne : q ≠ p) : q <+: p.dropLast := by
  obtain ⟨t, rfl⟩ := h
  cases t with
  | nil => exact absurd (by simp) hne
  | cons x ts =>
    rw [List.dropLast_append_of_ne_nil _ (by simp)]
    exact List.prefix_append q _

/-- `invalidateSnapshots` on a fully live parent chain: every prefix of the
written path is tombstoned, every other cache slot is untouched, and nothing
else in the state changes. -/
theorem invalidateSnapshots_live_chain : ∀ (n : Nat) (p : Path), p.length ≤ n →
    ∀ st st',
    (∀ q, q <+: p → ∃ a, lookupKey st.snapC q = some (some a)) →
    invalidateSnapshots st p = Except.ok st' →
    (∀ q, ¬ q <+: p → lookupKey st'.snapC q = lookupKey st.snapC q) ∧
    (∀ q, q <+: p → lookupKey st'.snapC q = some none) ∧
    (∃ sc, st' = { st with snapC := sc }) := by
  intro n
  induction n with
  | zero =>
    intro p hp st st' hlive h
    have hp0 : p = [] := List.eq_nil_of_length_eq_zero (Nat.le_zero.mp hp)
    subst hp0
    obtain ⟨a, ha⟩ := hlive [] List.prefix_rfl
    rw [invalidateSnapshots, ha] at h
    simp only at h
    rw [dif_pos trivial] at h
    simp only [pure, Except.pure, Except.ok.injEq] at h
    subst h
    refine ⟨?_, ?_, ⟨_, rfl⟩⟩
    · intro q hq
      simp only
      rw [List.prefix_nil] at hq
      exact lookupKey_setKey_ne _ _ _ _ hq
    · intro q hq
      rw [List.prefix_nil] at hq
      subst hq
      simp only
      exact lookupKey_setKey_self _ _ _
  | succ m ihm =>
    intro p hp st st' hlive h
    obtain ⟨a, ha⟩ := hlive p List.prefix_rfl
    rw [invalidateSnapshots, ha] at h
    simp only at h
    by_cases hp0 : p = []
    · subst hp0
      rw [dif_pos rfl] at h
      simp only [pure, Except.pure, Except.ok.injEq] at h
      subst h
      refine ⟨?_, ?_, ⟨_, rfl⟩⟩
      · intro q hq
        simp only
        rw [List.prefix_nil] at hq
        exact lookupKey_setKey_ne _ _ _ _ hq
      · intro q hq
        rw [List.prefix_nil] at hq
        subst hq
        simp only
        exact lookupKey_setKey_self _ _ _
    · rw [dif_neg hp0] at h
      have hlen : p.dropLast.length ≤ m := by
        rw [List.length_dropLast]
        have h2 : 0 < p.length := List.length_pos.mpr hp0
        omega
      have hnotp : ¬ p <+: p.dropLast := by
        intro hpre
        have h1 := hpre.length_le
        rw [List.length_dropLast] at h1
        have h2 : 0 < p.length := List.length_pos.mpr hp0
        omega
      have hlive1 : ∀ q, q <+: p.dropLast →
          ∃ b, lookupKey ({ st with snapC := setKey st.snapC p none }).snapC q =
            some (some b) := by
        intro q hq
        have hqp : q <+: p := hq.trans (List.dropLast_prefix p)
        obtain ⟨b, hb⟩ := hlive q hqp
        have hqne : q ≠ p := by
          intro he
          subst he
          exact hnotp hq
        exact ⟨b, by simp only; rw [lookupKey_setKey_ne _ _ _ _ hqne]; exact hb⟩
      obtain ⟨hA, hB, hC⟩ := ihm p.dropLast hlen _ st' hlive1 h
      refine ⟨?_, ?_, ?_⟩
      · intro q hq
        have hq1 : ¬ q <+: p.dropLast := by
          intro hq2
          exact hq (hq2.trans (List.dropLast_prefix p))
        have hq2 : q ≠ p := by
          intro he
          subst he
          exact hq List.prefix_rfl
        rw [hA q hq1]
        simp only
        exact lookupKey_setKey_ne _ _ _ _ hq2
      · intro q hq
        by_cases hqe : q = p
        · subst hqe
          rw [hA q hnotp]
          simp only
          exact lookupKey_setKey_self _ _ _
        · exact hB q (prefix_dropLast_of_ne hq hqe)
      · obtain ⟨sc, hsc⟩ := hC
        exact ⟨sc, by rw [hsc]⟩

/-! ## Lemmas: path framing and the shape of snapshot application -/

theorem nodeAt_nil (root : MVal) : nodeAt root [] = some root := by
  cases root <;> rfl

theorem nodeAt_cons_obj (fr : Bool) (e : List (String × MVal)) (k : String)
    (q : Path) : nodeAt (MVal.obj fr e) (k :: q) =
      match lookupKey e k with
      | some v => nodeAt v q
      | none => none := rfl

theorem nodeAt_snoc_obj : ∀ (root : MVal) (p : Path) (k : String)
    (fr : Bool) (entries : List (String × MVal)),
    nodeAt root p = some (MVal.obj fr entries) →
    nodeAt root (p ++ [k]) = lookupKey entries k := by
  intro root p
  induction p generalizing root with
  | nil =>
    intro k fr entries h
    rw [nodeAt_nil] at h
    have hr : root = MVal.obj fr entries := Option.some.inj h
    subst hr
    rw [List.nil_append, nodeAt_cons_obj]
    cases hc : lookupKey entries k with
    | none => rfl
    | some v => simp only [nodeAt_nil]
  | cons k1 p1 ih =>
    intro k fr entries h
    cases root with
    | scal s => exact absurd h (by simp [nodeAt])
    | snap a => exact absurd h (by simp [nodeAt])
    | obj fr0 e0 =>
      rw [nodeAt_cons_obj] at h
      rw [List.cons_append, nodeAt_cons_obj]
      cases hc : lookupKey e0 k1 with
      | none => rw [hc] at h; exact absurd h (by simp)
      | some child =>
        rw [hc] at h
        simp only at h
        exact ih child k fr entries h

theorem snoc_prefix_snoc {α : Type} {l : List α} {x y : α}
    (h : l ++ [x] <+: l ++ [y]) : x = y := by
  have hl : l ++ [x] = l ++ [y] := h.eq_of_length (by simp)
  have := List.append_cancel_left hl
  simp only [List.cons.injEq] at this
  exact this.1

theorem not_snoc_pref {α : Type} (l : List α) (x : α) : ¬ l ++ [x] <+: l := by
  intro h
  have := h.length_le
  simp at this

/-- Writing through the tree at `(pw, kw)` only changes the written entry's
position and the nodes above it: any path that neither lies on the parent
chain of `pw` nor extends the written slot `pw ++ [kw]` reads the same
node. -/
theorem nodeAt_setAtPath_frame : ∀ (pw : Path) (root : MVal) (kw : String)
    (v : MVal) (q : Path), ¬ q <+: pw → ¬ (pw ++ [kw]) <+: q →
    nodeAt (setAtPath root pw kw v) q = nodeAt root q := by
  intro pw
  induction pw with
  | nil =>
    intro root kw v q hq1 hq2
    cases root with
    | scal s => rfl
    | snap a => rfl
    | obj fr entries =>
      rw [setAtPath]
      cases q with
      | nil => exact absurd List.nil_prefix hq1
      | cons k1 q1 =>
        have hk1 : k1 ≠ kw := by
          intro he
          subst he
          exact hq2 ⟨q1, rfl⟩
        rw [nodeAt, nodeAt]
        rw [lookupKey_setKey_ne _ _ _ _ hk1]
  | cons w pw1 ih =>
    intro root kw v q hq1 hq2
    cases root with
    | scal s => rfl
    | snap a => rfl
    | obj fr entries =>
      rw [setAtPath]
      cases hc : lookupKey entries w with
      | none => rfl
      | some child =>
        simp only
        cases q with
        | nil => exact absurd List.nil_prefix hq1
        | cons k1 q1 =>
          rw [nodeAt, nodeAt]
          by_cases hk1 : k1 = w
          · subst hk1
            rw [lookupKey_setKey_self, hc]
            simp only
            apply ih
            · intro hpre
              exact hq1 (List.cons_prefix_cons.mpr ⟨rfl, hpre⟩)
            · intro hpre
              rw [List.cons_append] at hq2
              exact hq2 (List.cons_prefix_cons.mpr ⟨rfl, hpre⟩)
          · rw [lookupKey_setKey_ne _ _ _ _ hk1]

/-- The `get` trap only ever hands out the proxy of the read position. -/
theorem getTrap_prox_path (st : St) (p : Path) (k : String) (st' : St)
    (q : Path) (h : getTrap st p k = Except.ok (st', TVal.prox q)) :
    q = p ++ [k] := by
  rw [getTrap] at h
  cases hn : nodeAt st.root p with
  | none => rw [hn] at h; exact absurd h (by simp)
  | some node =>
    rw [hn] at h
    cases node with
    | scal s => exact absurd h (by simp)
    | snap a => exact absurd h (by simp)
    | obj fr entries =>
      simp only at h
      by_cases hk : (lookupKey entries k).isNone
      · rw [if_pos hk] at h
        simp only [pure, Except.pure, Except.ok.injEq, Prod.mk.injEq] at h
        cases hv : lookupKey entries k with
        | none =>
          rw [hv] at h
          exact absurd h.2 (by simp)
        | some w =>
          rw [hv] at hk
          exact absurd hk (by simp)
      · rw [if_neg hk] at h
        obtain ⟨st1, h1, h2⟩ := exceptBind_ok h
        try simp only at h2
        cases hmk : makeReactiveWithParent st1
            ((lookupKey entries k).getD (MVal.scal Scal.undef)) (p ++ [k]) with
        | mk st2 res2 =>
          rw [hmk] at h2
          simp only at h2
          have hres : res2 = TVal.plain ((lookupKey entries k).getD
              (MVal.scal Scal.undef)) ∨ res2 = TVal.prox (p ++ [k]) := by
            rw [makeReactiveWithParent] at hmk
            by_cases h3 : isMutable ((lookupKey entries k).getD
                (MVal.scal Scal.undef)) = false
            · rw [if_pos h3] at hmk
              cases hmk
              exact Or.inl rfl
            · rw [if_neg h3] at hmk
              by_cases h4 : (p ++ [k]) ∈ st1.tracked
              · rw [if_pos h4] at hmk
                cases hmk
                exact Or.inr rfl
              · rw [if_neg h4] at hmk
                cases hmk
                exact Or.inr rfl
          rcases hres with hres | hres <;> subst hres
          · rw [if_neg (by simp)] at h2
            simp only [pure, Except.pure, Except.ok.injEq, Prod.mk.injEq] at h2
            exact absurd h2.2 (by simp)
          · by_cases hfr : fr = true
            · rw [if_pos (by simp [hfr])] at h2
              exact absurd h2 (by simp)
            · rw [if_neg (by simp [hfr])] at h2
              simp only [pure, Except.pure, Except.ok.injEq, Prod.mk.injEq] at h2
              exact (TVal.prox.inj h2.2).symm

/-- `takeSnapshot` on a proxy returns a snapshot: the address cached live
beforehand, or a fresh address at or above the allocator mark. -/
theorem takeSnapshot_prox_cases (n : Nat) (st : St) (p : Path) (st' : St)
    (r : TVal) (h : takeSnapshot n st (TVal.prox p) = Except.ok (st', r)) :
    ∃ c, r = TVal.plain (MVal.snap c) ∧
      (lookupKey st.snapC p = some (some c) ∨ st.snapNext ≤ c) := by
  cases n with
  | zero =>
    rw [takeSnapshot] at h
    exact absurd h (by simp)
  | succ m =>
    have hcs : (∃ a, lookupKey st.snapC p = some (some a)) ∨
        lookupKey st.snapC p = some none ∨ lookupKey st.snapC p = none := by
      cases lookupKey st.snapC p with
      | none => exact Or.inr (Or.inr rfl)
      | some o => cases o with
        | none => exact Or.inr (Or.inl rfl)
        | some a => exact Or.inl ⟨a, rfl⟩
    rcases hcs with ⟨a, hc⟩ | hc | hc
    · rw [takeSnapshot_cached m st p a hc] at h
      simp only [Except.ok.injEq, Prod.mk.injEq] at h
      exact ⟨a, h.2.symm, Or.inl hc⟩
    · obtain ⟨a, hr, hge, _, _, _⟩ :=
        takeSnapshot_fresh (m + 1) st p st' r hc h
      exact ⟨a, hr, Or.inr hge⟩
    · rw [takeSnapshot] at h
      rw [if_neg (by simp [isMutableT])] at h
      rw [hc] at h
      exact absurd h (by simp)

/-- Applying anything to the snapshot-side value `undefined` fails: the
recursion reaches `Object.keys(undefined)` (or a property read of
`undefined`) and the engine throws. -/
theorem applySnapshot_undef_error (n : Nat) (st : St) (p : Path) (st' : St)
    (h : applySnapshot n st (TVal.prox p) (MVal.scal Scal.undef) =
      Except.ok st') : False := by
  cases n with
  | zero =>
    rw [applySnapshot] at h
    exact absurd h (by simp)
  | succ m =>
    rw [applySnapshot] at h
    obtain ⟨⟨st1, t⟩, h1, h2⟩ := exceptBind_ok h
    obtain ⟨c, hc, _⟩ := takeSnapshot_prox_cases (m + 1) st p st1 t h1
    subst hc
    try simp only at h2
    rw [if_neg (by simp [jsSameT, jsSame])] at h2
    obtain ⟨⟨st2, ks⟩, h3, h4⟩ := exceptBind_ok h2
    try simp only at h4
    obtain ⟨st3, h5, h6⟩ := exceptBind_ok h4
    try simp only at h6
    simp only [jsKeys] at h6
    simp only [bind, Except.bind] at h6
    exact Except.noConfusion h6

/-- A successful `set` trap leaves the snapshot heap and allocator alone and
changes the raw tree only at the written slot and above it. -/
theorem setTrap_frame (st st' : St) (p : Path) (k : String) (v : MVal)
    (h : setTrap st p k v = Except.ok st') :
    st'.snapHeap = st.snapHeap ∧ st'.snapNext = st.snapNext ∧
    ∀ q, ¬ q <+: p → ¬ (p ++ [k]) <+: q →
      nodeAt st'.root q = nodeAt st.root q := by
  cases hn : nodeAt st.root p with
  | none => rw [setTrap, hn] at h; exact absurd h (by simp)
  | some node =>
    cases node with
    | scal s => rw [setTrap, hn] at h; exact absurd h (by simp)
    | snap a => rw [setTrap, hn] at h; exact absurd h (by simp)
    | obj fr entries =>
      obtain ⟨_, sc, ext, hs, _, _⟩ := setTrap_ok st st' p k v fr entries hn h
      rw [hs]
      exact ⟨rfl, rfl, fun q hq1 hq2 =>
        nodeAt_setAtPath_frame p st.root k v q hq1 hq2⟩

/-- `applySnapshot` and its helpers: snapshot-heap entries are never
changed or removed, writes stay inside the subtree being applied to, and a
plain (non-proxy) left value means nothing happens at all. -/
theorem applySnap_frame : ∀ n : Nat,
    (∀ st pv s st', applySnapshot n st pv s = Except.ok st' →
      (∀ b o, lookupKey st.snapHeap b = some o →
        lookupKey st'.snapHeap b = some o) ∧
      (∀ p, pv = TVal.prox p → ∀ q, ¬ q <+: p → ¬ p <+: q →
        nodeAt st'.root q = nodeAt st.root q) ∧
      (∀ w, pv = TVal.plain w → st' = st)) ∧
    (∀ st p s ks st', applyLoop n st p s ks = Except.ok st' →
      (∀ b o, lookupKey st.snapHeap b = some o →
        lookupKey st'.snapHeap b = some o) ∧
      (∀ q, ¬ q <+: p → (∀ k ∈ ks, ¬ (p ++ [k]) <+: q) →
        nodeAt st'.root q = nodeAt st.root q)) ∧
    (∀ st p s k st', applyAtKey n st p s k = Except.ok st' →
      (∀ b o, lookupKey st.snapHeap b = some o →
        lookupKey st'.snapHeap b = some o) ∧
      (∀ q, ¬ q <+: p → ¬ (p ++ [k]) <+: q →
        nodeAt st'.root q = nodeAt st.root q)) := by
  intro n
  induction n with
  | zero =>
    have hA : ∀ st pv s st', applySnapshot 0 st pv s = Except.ok st' →
        (∀ b o, lookupKey st.snapHeap b = some o →
          lookupKey st'.snapHeap b = some o) ∧
        (∀ p, pv = TVal.prox p → ∀ q, ¬ q <+: p → ¬ p <+: q →
          nodeAt st'.root q = nodeAt st.root q) ∧
        (∀ w, pv = TVal.plain w → st' = st) := by
      intro st pv s st' h
      rw [applySnapshot] at h
      exact absurd h (by simp)
    have hC : ∀ st p s k st', applyAtKey 0 st p s k = Except.ok st' →
        (∀ b o, lookupKey st.snapHeap b = some o →
          lookupKey st'.snapHeap b = some o) ∧
        (∀ q, ¬ q <+: p → ¬ (p ++ [k]) <+: q →
          nodeAt st'.root q = nodeAt st.root q) := by
      intro st p s k st' h
      rw [applyAtKey] at h
      obtain ⟨⟨st1, value⟩, h1, h2⟩ := exceptBind_ok h
      try simp only at h2
      obtain ⟨hr1, hh1, _⟩ := getTrap_shape _ _ _ _ _ h1
      by_cases hm : isMutableT value = true
      · rw [if_pos hm] at h2
        obtain ⟨sv, h3, h4⟩ := exceptBind_ok h2
        try simp only at h4
        obtain ⟨_, _, hplain⟩ := hA st1 value sv st' h4
        cases value with
        | prox q' =>
          rw [applySnapshot] at h4
          exact absurd h4 (by simp)
        | plain w =>
          have hst' : st' = st1 := hplain w rfl
          subst hst'
          exact ⟨fun b o hb => by rw [hh1]; exact hb,
            fun q _ _ => by rw [hr1]⟩
      · rw [if_neg hm] at h2
        obtain ⟨⟨st2, w2⟩, h3, h4⟩ := exceptBind_ok h2
        try simp only at h4
        obtain ⟨hr2, hh2, _⟩ := getTrap_shape _ _ _ _ _ h3
        obtain ⟨sv, h5, h6⟩ := exceptBind_ok h4
        try simp only at h6
        by_cases hj : jsSameT w2 sv = true
        · rw [if_pos hj] at h6
          simp only [pure, Except.pure, Except.ok.injEq] at h6
          subst h6
          exact ⟨fun b o hb => by rw [hh2, hh1]; exact hb,
            fun q _ _ => by rw [hr2, hr1]⟩
        · rw [if_neg hj] at h6
          obtain ⟨hhs, _, hrootf⟩ := setTrap_frame st2 st' p k sv h6
          refine ⟨fun b o hb => by rw [hhs, hh2, hh1]; exact hb, ?_⟩
          intro q hq1 hq2
          rw [hrootf q hq1 hq2, hr2, hr1]
    refine ⟨hA, ?_, hC⟩
    intro st p s ks
    induction ks generalizing st with
    | nil =>
      intro st' h
      rw [applyLoop] at h
      simp only [pure, Except.pure, Except.ok.injEq] at h
      subst h
      exact ⟨fun b o hb => hb, fun q _ _ => rfl⟩
    | cons k ks1 ihb =>
      intro st' h
      rw [applyLoop] at h
      obtain ⟨st1, h1, h2⟩ := exceptBind_ok h
      obtain ⟨hh1, hroot1⟩ := hC st p s k st1 h1
      obtain ⟨hh2, hroot2⟩ := ihb st1 st' h2
      refine ⟨fun b o hb => hh2 b o (hh1 b o hb), ?_⟩
      intro q hq1 hq2
      rw [hroot2 q hq1 (fun k' hk' => hq2 k' (List.mem_cons_of_mem _ hk'))]
      exact hroot1 q hq1 (hq2 k (List.mem_cons_self _ _))
  | succ m ih =>
    obtain ⟨ihA, ihB, ihC⟩ := ih
    have hA : ∀ st pv s st', applySnapshot (m + 1) st pv s = Except.ok st' →
        (∀ b o, lookupKey st.snapHeap b = some o →
          lookupKey st'.snapHeap b = some o) ∧
        (∀ p, pv = TVal.prox p → ∀ q, ¬ q <+: p → ¬ p <+: q →
          nodeAt st'.root q = nodeAt st.root q) ∧
        (∀ w, pv = TVal.plain w → st' = st) := by
      intro st pv s st' h
      cases pv with
      | plain w =>
        rw [applySnapshot] at h
        obtain ⟨⟨st1, t⟩, h1, h2⟩ := exceptBind_ok h
        try simp only at h2
        cases w with
        | obj fr e =>
          rw [takeSnapshot] at h1
          rw [if_neg (by simp [isMutableT, isMutable])] at h1
          exact absurd h1 (by simp)
        | scal c =>
          rw [takeSnapshot] at h1
          rw [if_pos (by simp [isMutableT, isMutable])] at h1
          simp only [pure, Except.pure, Except.ok.injEq, Prod.mk.injEq] at h1
          obtain ⟨hst1, ht⟩ := h1
          rw [← ht] at h2
          by_cases hj : jsSameT (TVal.plain (MVal.scal c)) s = true
          · rw [if_pos hj] at h2
            simp only [pure, Except.pure, Except.ok.injEq] at h2
            rw [← h2, ← hst1]
            exact ⟨fun b o hb => hb, fun p hp => TVal.noConfusion hp,
              fun w2 _ => rfl⟩
          · rw [if_neg hj] at h2
            exact absurd h2 (by simp)
        | snap a =>
          rw [takeSnapshot] at h1
          rw [if_pos (by simp [isMutableT, isMutable])] at h1
          simp only [pure, Except.pure, Except.ok.injEq, Prod.mk.injEq] at h1
          obtain ⟨hst1, ht⟩ := h1
          rw [← ht] at h2
          by_cases hj : jsSameT (TVal.plain (MVal.snap a)) s = true
          · rw [if_pos hj] at h2
            simp only [pure, Except.pure, Except.ok.injEq] at h2
            rw [← h2, ← hst1]
            exact ⟨fun b o hb => hb, fun p hp => TVal.noConfusion hp,
              fun w2 _ => rfl⟩
          · rw [if_neg hj] at h2
            exact absurd h2 (by simp)
      | prox p =>
        rw [applySnapshot] at h
        obtain ⟨⟨st1, t⟩, h1, h2⟩ := exceptBind_ok h
        try simp only at h2
        have hext1 : SnapExt st st1 := (takeSnapshot_mono (m + 1)).1 _ _ _ _ h1
        by_cases hj : jsSameT t s = true
        · rw [if_pos hj] at h2
          simp only [pure, Except.pure, Except.ok.injEq] at h2
          subst h2
          exact ⟨fun b o hb => hext1.2.2.1 b o hb,
            fun p2 hp2 q _ _ => by rw [hext1.1],
            fun w hw => TVal.noConfusion hw⟩
        · rw [if_neg hj] at h2
          obtain ⟨⟨st2, ks⟩, h3, h4⟩ := exceptBind_ok h2
          try simp only at h4
          obtain ⟨⟨cb, sb, hsh2⟩, _⟩ := ownKeys_ok st1 p st2 ks h3
          obtain ⟨st3, h5, h6⟩ := exceptBind_ok h4
          try simp only at h6
          obtain ⟨hhB1, hrootB1⟩ := ihB st2 p s ks st3 h5
          obtain ⟨sks, h7, h8⟩ := exceptBind_ok h6
          try simp only at h8
          obtain ⟨hhB2, hrootB2⟩ := ihB st3 p s sks st' h8
          have hh2 : st2.snapHeap = st1.snapHeap := by rw [hsh2]
          have hr2 : st2.root = st1.root := by rw [hsh2]
          refine ⟨?_, ?_, fun w hw => TVal.noConfusion hw⟩
          · intro b o hb
            apply hhB2
            apply hhB1
            rw [hh2]
            exact hext1.2.2.1 b o hb
          · intro p2 hp2 q hq1 hq2
            have hp2e : p2 = p := TVal.prox.inj hp2.symm
            subst hp2e
            have hnk : ∀ k2 : String, ¬ (p2 ++ [k2]) <+: q := by
              intro k2 hk2
              exact hq2 ((List.prefix_append p2 [k2]).trans hk2)
            rw [hrootB2 q hq1 (fun k2 _ => hnk k2)]
            rw [hrootB1 q hq1 (fun k2 _ => hnk k2)]
            rw [hr2, hext1.1]
    have hC : ∀ st p s k st', applyAtKey (m + 1) st p s k = Except.ok st' →
        (∀ b o, lookupKey st.snapHeap b = some o →
          lookupKey st'.snapHeap b = some o) ∧
        (∀ q, ¬ q <+: p → ¬ (p ++ [k]) <+: q →
          nodeAt st'.root q = nodeAt st.root q) := by
      intro st p s k st' h
      rw [applyAtKey] at h
      obtain ⟨⟨st1, value⟩, h1, h2⟩ := exceptBind_ok h
      try simp only at h2
      obtain ⟨hr1, hh1, _⟩ := getTrap_shape _ _ _ _ _ h1
      by_cases hm : isMutableT value = true
      · rw [if_pos hm] at h2
        obtain ⟨sv, h3, h4⟩ := exceptBind_ok h2
        try simp only at h4
        obtain ⟨hheapA, hrootA, hplainA⟩ := hA st1 value sv st' h4
        cases value with
        | prox q' =>
          have hq' : q' = p ++ [k] := getTrap_prox_path st p k st1 q' h1
          subst hq'
          refine ⟨fun b o hb => hheapA b o (by rw [hh1]; exact hb), ?_⟩
          intro q hq1 hq2
          have hrA := hrootA (p ++ [k]) rfl q ?_ hq2
          · rw [hrA, hr1]
          · intro hqpre
            rcases List.prefix_concat_iff.mp hqpre with hc | hc
            · exact hq2 (hc ▸ List.prefix_rfl)
            · exact hq1 hc
        | plain w =>
          have hst' : st' = st1 := hplainA w rfl
          subst hst'
          exact ⟨fun b o hb => by rw [hh1]; exact hb,
            fun q _ _ => by rw [hr1]⟩
      · rw [if_neg hm] at h2
        obtain ⟨⟨st2, w2⟩, h3, h4⟩ := exceptBind_ok h2
        try simp only at h4
        obtain ⟨hr2, hh2, _⟩ := getTrap_shape _ _ _ _ _ h3
        obtain ⟨sv, h5, h6⟩ := exceptBind_ok h4
        try simp only at h6
        by_cases hj : jsSameT w2 sv = true
        · rw [if_pos hj] at h6
          simp only [pure, Except.pure, Except.ok.injEq] at h6
          subst h6
          exact ⟨fun b o hb => by rw [hh2, hh1]; exact hb,
            fun q _ _ => by rw [hr2, hr1]⟩
        · rw [if_neg hj] at h6
          obtain ⟨hhs, _, hrootf⟩ := setTrap_frame st2 st' p k sv h6
          refine ⟨fun b o hb => by rw [hhs, hh2, hh1]; exact hb, ?_⟩
          intro q hq1 hq2
          rw [hrootf q hq1 hq2, hr2, hr1]
    refine ⟨hA, ?_, hC⟩
    intro st p s ks
    induction ks generalizing st with
    | nil =>
      intro st' h
      rw [applyLoop] at h
      simp only [pure, Except.pure, Except.ok.injEq] at h
      subst h
      exact ⟨fun b o hb => hb, fun q _ _ => rfl⟩
    | cons k ks1 ihb =>
      intro st' h
      rw [applyLoop] at h
      obtain ⟨st1, h1, h2⟩ := exceptBind_ok h
      obtain ⟨hh1, hroot1⟩ := hC st p s k st1 h1
      obtain ⟨hh2, hroot2⟩ := ihb st1 st' h2
      refine ⟨fun b o hb => hh2 b o (hh1 b o hb), ?_⟩
      intro q hq1 hq2
      rw [hroot2 q hq1 (fun k' hk' => hq2 k' (List.mem_cons_of_mem _ hk'))]
      exact hroot1 q hq1 (hq2 k (List.mem_cons_self _ _))

/-- Reading a key that holds a structured value yields the child proxy (or
the whole `get` fails on a frozen target). -/
theorem getTrap_struct (st : St) (p : Path) (k : String) (st' : St) (r : TVal)
    (fr cfr : Bool) (entries centries : List (String × MVal))
    (hn : nodeAt st.root p = some (MVal.obj fr entries))
    (hk : lookupKey entries k = some (MVal.obj cfr centries))
    (h : getTrap st p k = Except.ok (st', r)) : r = TVal.prox (p ++ [k]) := by
  cases fr with
  | false => exact getTrap_mutable st p k st' r entries _ hn hk rfl h
  | true =>
    exfalso
    rw [getTrap, hn] at h
    simp only at h
    rw [hk] at h
    simp only [Option.isNone_some, Option.getD_some] at h
    rw [if_neg Bool.false_ne_true] at h
    obtain ⟨st1, h1, h2⟩ := exceptBind_ok h
    try simp only at h2
    cases hmk : makeReactiveWithParent st1 (MVal.obj cfr centries) (p ++ [k]) with
    | mk st2 res2 =>
      rw [hmk] at h2
      simp only at h2
      have hres : res2 = TVal.prox (p ++ [k]) := by
        rw [makeReactiveWithParent] at hmk
        rw [if_neg (by simp [isMutable])] at hmk
        by_cases h4 : (p ++ [k]) ∈ st1.tracked
        · rw [if_pos h4] at hmk
          cases hmk
          rfl
        · rw [if_neg h4] at hmk
          cases hmk
          rfl
      subst hres
      rw [if_pos (by simp)] at h2
      exact absurd h2 (by simp)

/-- The per-key loop of `applySnapshot` cannot succeed when one of its keys
holds a structured value on the handle side but is absent from the snapshot:
reaching that key recurses with the snapshot-side value `undefined`, which
throws before anything can be restored. -/
theorem applyLoop_added_struct : ∀ (ks : List String) (n : Nat) (st : St)
    (p : Path) (a : Nat) (o : SnapObj) (k : String)
    (cfr : Bool) (centries : List (String × MVal)) (st' : St),
    k ∈ ks →
    lookupKey st.snapHeap a = some o →
    lookupKey o.entries k = none →
    nodeAt st.root (p ++ [k]) = some (MVal.obj cfr centries) →
    applyLoop n st p (MVal.snap a) ks = Except.ok st' → False := by
  intro ks
  induction ks with
  | nil =>
    intro n st p a o k cfr centries st' hk
    exact absurd hk (by simp)
  | cons k1 ks1 ih =>
    intro n st p a o k cfr centries st' hk hheap hks hnode h
    rw [applyLoop] at h
    obtain ⟨st1, h1, h2⟩ := exceptBind_ok h
    by_cases hkk : k1 = k
    · subst hkk
      rw [applyAtKey] at h1
      obtain ⟨⟨st2, value⟩, h3, h4⟩ := exceptBind_ok h1
      try simp only at h4
      have hvp : value = TVal.prox (p ++ [k1]) := by
        cases hn2 : nodeAt st.root p with
        | none => rw [getTrap, hn2] at h3; exact absurd h3 (by simp)
        | some node =>
          cases node with
          | scal s => rw [getTrap, hn2] at h3; exact absurd h3 (by simp)
          | snap b => rw [getTrap, hn2] at h3; exact absurd h3 (by simp)
          | obj fr entries =>
            have hkl : lookupKey entries k1 = some (MVal.obj cfr centries) := by
              rw [← nodeAt_snoc_obj st.root p k1 fr entries hn2]
              exact hnode
            exact getTrap_struct st p k1 st2 value fr cfr entries centries
              hn2 hkl h3
      subst hvp
      rw [if_pos (by rfl)] at h4
      obtain ⟨sv, h5, h6⟩ := exceptBind_ok h4
      try simp only at h6
      have hheap2 : st2.snapHeap = st.snapHeap :=
        (getTrap_shape _ _ _ _ _ h3).2.1
      rw [sGet, hheap2, hheap] at h5
      simp only [hks, Option.map_none, Option.getD_none, pure, Except.pure,
        Except.ok.injEq] at h5
      subst h5
      exact applySnapshot_undef_error n st2 (p ++ [k1]) st1 h6
    · obtain ⟨hheap1, hroot1⟩ := (applySnap_frame n).2.2 st p _ k1 st1 h1
      have hknot : ¬ (p ++ [k1]) <+: p ++ [k] := by
        intro hpre
        exact hkk (snoc_prefix_snoc hpre)
      have hnode1 : nodeAt st1.root (p ++ [k]) =
          some (MVal.obj cfr centries) := by
        rw [hroot1 (p ++ [k]) (not_snoc_pref p k) hknot]
        exact hnode
      exact ih n st1 p a o k cfr centries st'
        ((List.mem_cons.mp hk).resolve_left (fun he => hkk he.symm))
        (hheap1 a o hheap) hks hnode1 h2

/-! ## Claim theorems -/

/-- **C1.** (amended) The original claim fails for structured keys added
after the snapshot: if key `k` of the object at path `p` currently holds a
structured value but is absent from the snapshot `a` (taken before `k` was
added), then `applySnapshot` throws instead of restoring — the recursion
reads `snapshot[k]`, gets `undefined`, and the next property access or
`Object.keys` on `undefined` raises a `TypeError`.  The hypotheses say only
that the tree and heap contain those values and that the root's cached
snapshot is not `a` itself (something was indeed written after `a` was
taken, so the bail-out `takeSnapshot(proxy) === snapshot` cannot fire: a
live cache holds a different address, and a rebuilt snapshot is allocated
fresh above every existing address). -/
theorem C1_added_structured_key (n : Nat) (st : St) (p : Path) (k : String)
    (pfr cfr : Bool) (pentries centries : List (String × MVal)) (a : Nat)
    (o : SnapObj)
    (hlt : heapLt st)
    (hnode : nodeAt st.root p = some (MVal.obj pfr pentries))
    (hk : lookupKey pentries k = some (MVal.obj cfr centries))
    (ha : lookupKey st.snapHeap a = some o)
    (hks : lookupKey o.entries k = none)
    (hcache : lookupKey st.snapC p ≠ some (some a)) :
    ∃ e, applySnapshot n st (TVal.prox p) (MVal.snap a) = Except.error e := by
  cases hres : applySnapshot n st (TVal.prox p) (MVal.snap a) with
  | error e => exact ⟨e, rfl⟩
  | ok st' =>
    exfalso
    cases n with
    | zero =>
      rw [applySnapshot] at hres
      exact absurd hres (by simp)
    | succ m =>
      rw [applySnapshot] at hres
      obtain ⟨⟨st1, t⟩, h1, h2⟩ := exceptBind_ok hres
      try simp only at h2
      obtain ⟨c, hc, hcc⟩ := takeSnapshot_prox_cases (m + 1) st p st1 t h1
      subst hc
      have hca : c ≠ a := by
        rcases hcc with hcc | hcc
        · intro he
          subst he
          exact hcache hcc
        · intro he
          subst he
          have := hlt _ (lookupKey_mem ha)
          omega
      rw [if_neg (by simp [jsSameT, jsSame, hca])] at h2
      obtain ⟨⟨st2, ks⟩, h3, h4⟩ := exceptBind_ok h2
      try simp only at h4
      obtain ⟨⟨cb, sb, hsh2⟩, fr2, entries2, hnode2, hks2⟩ :=
        ownKeys_ok st1 p st2 ks h3
      have hext1 : SnapExt st st1 := (takeSnapshot_mono (m + 1)).1 _ _ _ _ h1
      have hnode1 : nodeAt st1.root p = some (MVal.obj pfr pentries) := by
        rw [hext1.1]
        exact hnode
      have hent : MVal.obj fr2 entries2 = MVal.obj pfr pentries := by
        rw [hnode1] at hnode2
        exact Option.some.inj hnode2.symm
      obtain ⟨hfr2, hent2⟩ := MVal.obj.inj hent
      have hkks : k ∈ ks := by
        rw [hks2, hent2]
        exact List.mem_map.mpr ⟨(k, MVal.obj cfr centries), lookupKey_mem hk, rfl⟩
      obtain ⟨st3, h5, h6⟩ := exceptBind_ok h4
      have hheap2 : lookupKey st2.snapHeap a = some o := by
        have hx : st2.snapHeap = st1.snapHeap := by rw [hsh2]
        rw [hx]
        exact hext1.2.2.1 a o ha
      have hnodes2 : nodeAt st2.root (p ++ [k]) =
          some (MVal.obj cfr centries) := by
        have hroot2 : st2.root = st1.root := by rw [hsh2]
        rw [hroot2, hext1.1]
        rw [nodeAt_snoc_obj st.root p k pfr pentries hnode]
        exact hk
      exact applyLoop_added_struct ks m st2 p a o k cfr centries st3
        hkks hheap2 hks hnodes2 h5

unseal takeSnapshot takeSnapList invalidateSnapshots in
theorem C1_added_structured_key_witness :
    ∃ e, applySnapshot 20 (okOr c1Add) (TVal.prox []) (MVal.snap 0) =
      Except.error e :=
  C1_added_structured_key 20 (okOr c1Add) [] "b" false false
    [("a", MVal.scal (Scal.num 1)),
     ("b", MVal.obj false [("c", MVal.scal (Scal.num 2))])]
    [("c", MVal.scal (Scal.num 2))] 0
    ⟨true, [("a", SVal.scal (Scal.num 1))]⟩
    (by
      intro e he
      have hh : (okOr c1Add).snapHeap =
          [(0, ⟨true, [("a", SVal.scal (Scal.num 1))]⟩)] := by rfl
      have hn : (okOr c1Add).snapNext = 1 := by rfl
      rw [hh] at he
      rw [hn]
      simp only [List.mem_cons, List.not_mem_nil, or_false] at he
      subst he
      decide)
    (by rfl) (by rfl) (by rfl) (by rfl) (by decide)

unseal applySnapshot applyLoop applyAtKey takeSnapshot takeSnapList invalidateSnapshots in
theorem C1_roundtrip_cex :
    applySnapshot 20 (okOr c1Add) (TVal.prox []) (MVal.snap 0) =
      Except.error Err.typeError := by
  rfl

/-- **C4.** Two independent structured subtrees `A` and `B` (keys `kA`,
`kB`) under a tracked root whose first snapshot cached live snapshots: the
root snapshot `a0` holds `SVal.ref aA` for `A` and `SVal.ref aB` for `B`
(reference identity of snapshot parts is address identity in the model).
After a write inside subtree `A` only (through the `set` trap at path
`kA :: pa`), the next `takeSnapshot` of the root returns a fresh root
snapshot whose `B`-entry is the *same* reference `SVal.ref aB` as before —
and the object at `aB` is untouched — while its `A`-entry references a
*different* (freshly allocated) snapshot object. -/
theorem C4_subtree_sharing (n : Nat) (st st2 st3 : St) (kA kB kw : String)
    (pa : Path) (vw : MVal) (ea eb : List (String × MVal))
    (a0 aA aB : Nat) (oB : SnapObj) (res : TVal)
    (hkAB : kA ≠ kB)
    (hroot : st.root = MVal.obj false
      [(kA, MVal.obj false ea), (kB, MVal.obj false eb)])
    (hco : cacheTracked st)
    (hlt : heapLt st)
    (hchain : ∀ q, q <+: (kA :: pa) → ∃ a, lookupKey st.snapC q = some (some a))
    (hB : lookupKey st.snapC [kB] = some (some aB))
    (hheap0 : lookupKey st.snapHeap a0 =
      some ⟨true, [(kA, SVal.ref aA), (kB, SVal.ref aB)]⟩)
    (hheapA : (lookupKey st.snapHeap aA).isSome = true)
    (hheapB : lookupKey st.snapHeap aB = some oB)
    (hw : setTrap st (kA :: pa) kw vw = Except.ok st2)
    (hs2 : takeSnapshot n st2 (TVal.prox []) = Except.ok (st3, res)) :
    ∃ r2 aA2, res = TVal.plain (MVal.snap r2) ∧
      lookupKey st3.snapHeap r2 =
        some ⟨true, [(kA, SVal.ref aA2), (kB, SVal.ref aB)]⟩ ∧
      aA2 ≠ aA ∧
      lookupKey st3.snapHeap aB = some oB ∧
      r2 ≠ a0 := by
  -- prefix bookkeeping
  have hprefA : [kA] <+: kA :: pa := ⟨pa, rfl⟩
  have hprefNil : ([] : Path) <+: kA :: pa := ⟨kA :: pa, rfl⟩
  have hnotB : ¬ [kB] <+: kA :: pa := by
    rintro ⟨t, ht⟩
    simp only [List.cons_append, List.nil_append, List.cons.injEq] at ht
    exact hkAB ht.1.symm
  have hABne : ([kA] : Path) ≠ [kB] := by
    intro he
    simp only [List.cons.injEq] at he
    exact hkAB he.1
  -- decompose the write
  rw [setTrap] at hw
  cases hnw : nodeAt st.root (kA :: pa) with
  | none => rw [hnw] at hw; exact absurd hw (by simp)
  | some node =>
    rw [hnw] at hw
    cases node with
    | scal s => exact absurd hw (by simp)
    | snap a => exact absurd hw (by simp)
    | obj wfr wentries =>
      simp only at hw
      cases wfr with
      | true =>
        exfalso
        by_cases hkn : (lookupKey wentries kw).isNone
        · rw [if_pos hkn] at hw
          obtain ⟨stc1, _, hw2⟩ := exceptBind_ok hw
          try simp only at hw2
          obtain ⟨stc2, _, hw4⟩ := exceptBind_ok hw2
          try simp only at hw4
          obtain ⟨stc3, _, hw6⟩ := exceptBind_ok hw4
          try simp only at hw6
          exact absurd hw6 (by simp)
        · rw [if_neg hkn] at hw
          obtain ⟨stc1, _, hw2⟩ := exceptBind_ok hw
          try simp only at hw2
          obtain ⟨stc2, _, hw4⟩ := exceptBind_ok hw2
          try simp only at hw4
          obtain ⟨stc3, _, hw6⟩ := exceptBind_ok hw4
          try simp only at hw6
          exact absurd hw6 (by simp)
      | false =>
        have hsplit : ∃ stc1 inv1 stc2 stc3,
            stc1 = { st with invalidated := inv1 } ∧
            invalidateSnapshots
              { stc1 with root := setAtPath stc1.root (kA :: pa) kw vw }
              (kA :: pa) = Except.ok stc2 ∧
            invalidateCallbacks stc2 (kA :: pa) (PKey.prop kw) =
              Except.ok stc3 ∧
            st2 = stc3 := by
          by_cases hkn : (lookupKey wentries kw).isNone
          · rw [if_pos hkn] at hw
            obtain ⟨stc1, hw1, hw2⟩ := exceptBind_ok hw
            try simp only at hw2
            simp only [Bool.not_false] at hw2
            rw [if_pos trivial] at hw2
            obtain ⟨stc2, hw3, hw4⟩ := exceptBind_ok hw2
            try simp only at hw4
            obtain ⟨stc3, hw5, hw6⟩ := exceptBind_ok hw4
            try simp only at hw6
            rw [if_pos trivial] at hw6
            simp only [pure, Except.pure, Except.ok.injEq] at hw6
            obtain ⟨⟨inv1, hi⟩, _⟩ := invalidateCallbacks_ok st stc1 _ _ hw1
            exact ⟨stc1, inv1, stc2, stc3, hi, hw3, hw5, hw6.symm⟩
          · rw [if_neg hkn] at hw
            obtain ⟨stc1, hw1, hw2⟩ := exceptBind_ok hw
            try simp only at hw2
            simp only [Bool.not_false] at hw2
            rw [if_pos trivial] at hw2
            obtain ⟨stc2, hw3, hw4⟩ := exceptBind_ok hw2
            try simp only at hw4
            obtain ⟨stc3, hw5, hw6⟩ := exceptBind_ok hw4
            try simp only at hw6
            rw [if_pos trivial] at hw6
            simp only [pure, Except.pure, Except.ok.injEq] at hw1 hw6
            exact ⟨stc1, st.invalidated, stc2, stc3, by rw [← hw1], hw3,
              hw5, hw6.symm⟩
        obtain ⟨stc1, inv1, stc2, stc3, hc1, hw3, hw5, hst2⟩ := hsplit
        -- the state passed to invalidateSnapshots
        have hscM : ({ stc1 with
            root := setAtPath stc1.root (kA :: pa) kw vw }).snapC = st.snapC := by
          rw [hc1]
        have hliveM : ∀ q, q <+: (kA :: pa) →
            ∃ a, lookupKey ({ stc1 with
              root := setAtPath stc1.root (kA :: pa) kw vw }).snapC q =
              some (some a) := by
          intro q hq
          rw [hscM]
          exact hchain q hq
        obtain ⟨hframe, htomb, scI, hscI⟩ :=
          invalidateSnapshots_live_chain (kA :: pa).length (kA :: pa) le_rfl
            _ stc2 hliveM hw3
        obtain ⟨⟨inv2, hstc3⟩, _⟩ :=
          invalidateCallbacks_ok stc2 stc3 _ _ hw5
        -- facts about the post-write state
        have hroot2 : st2.root = MVal.obj false
            [(kA, setAtPath (MVal.obj false ea) pa kw vw),
             (kB, MVal.obj false eb)] := by
          rw [hst2, hstc3, hscI]
          simp only
          rw [hc1]
          simp only
          rw [hroot, setAtPath]
          simp [lookupKey, setKey]
        have hheap2 : st2.snapHeap = st.snapHeap := by
          rw [hst2, hstc3, hscI]
          simp only
          rw [hc1]
        have hnext2 : st2.snapNext = st.snapNext := by
          rw [hst2, hstc3, hscI]
          simp only
          rw [hc1]
        have htr2 : st2.tracked = st.tracked := by
          rw [hst2, hstc3, hscI]
          simp only
          rw [hc1]
        have hsnapc2 : ∀ q, lookupKey st2.snapC q = lookupKey stc2.snapC q := by
          intro q
          rw [hst2, hstc3]
        have htombNil : lookupKey st2.snapC [] = some none := by
          rw [hsnapc2]
          exact htomb [] hprefNil
        have htombA : lookupKey st2.snapC [kA] = some none := by
          rw [hsnapc2]
          exact htomb [kA] hprefA
        have hliveB2 : lookupKey st2.snapC [kB] = some (some aB) := by
          rw [hsnapc2, hframe [kB] hnotB, hscM]
          exact hB
        have hframe2 : ∀ q, ¬ q <+: (kA :: pa) →
            lookupKey st2.snapC q = lookupKey st.snapC q := by
          intro q hq
          rw [hsnapc2, hframe q hq, hscM]
        have hco2 : cacheTracked st2 := by
          intro q hq
          rw [htr2]
          by_cases hpre : q <+: (kA :: pa)
          · obtain ⟨b, hb⟩ := hchain q hpre
            exact hco q (by rw [hb]; rfl)
          · rw [hframe2 q hpre] at hq
            exact hco q hq
        have hlt2 : heapLt st2 := by
          intro e he
          rw [hnext2]
          rw [hheap2] at he
          exact hlt e he
        -- decompose the second snapshot
        cases n with
        | zero => rw [takeSnapshot] at hs2; exact absurd hs2 (by simp)
        | succ m =>
          rw [takeSnapshot] at hs2
          rw [if_neg (by simp [isMutableT])] at hs2
          rw [htombNil] at hs2
          try simp only at hs2
          obtain ⟨⟨sk1, ks⟩, hk1, hk2⟩ := exceptBind_ok hs2
          obtain ⟨⟨skm, es⟩, hk3, hk4⟩ := exceptBind_ok hk2
          simp only [pure, Except.pure, Except.ok.injEq, Prod.mk.injEq] at hk4
          obtain ⟨⟨cb1, sb1, hsk1⟩, fr0, entries0, hnode0, hks⟩ :=
            ownKeys_ok st2 [] sk1 ks hk1
          have hroot0 : st2.root = MVal.obj fr0 entries0 := by
            have : nodeAt st2.root [] = some st2.root := by
              cases st2.root <;> rfl
            rw [this] at hnode0
            exact Option.some.inj hnode0
          rw [hroot2] at hroot0
          obtain ⟨hfr0, hent0⟩ : false = fr0 ∧
              [(kA, setAtPath (MVal.obj false ea) pa kw vw),
               (kB, MVal.obj false eb)] = entries0 := by
            cases hroot0
            exact ⟨rfl, rfl⟩
          have hksv : ks = [kA, kB] := by
            rw [hks, ← hent0]
            rfl
          subst hksv
          -- facts about sk1
          have hsk1root : sk1.root = st2.root := by rw [hsk1]
          have hsk1sc : sk1.snapC = st2.snapC := by rw [hsk1]
          have hsk1tr : sk1.tracked = st2.tracked := by rw [hsk1]
          have hsk1heap : sk1.snapHeap = st2.snapHeap := by rw [hsk1]
          have hsk1next : sk1.snapNext = st2.snapNext := by rw [hsk1]
          have hco1 : cacheTracked sk1 := by
            intro q hq
            rw [hsk1tr]
            rw [hsk1sc] at hq
            exact hco2 q hq
          have hlt1 : heapLt sk1 := by
            intro e he
            rw [hsk1next]
            rw [hsk1heap] at he
            exact hlt2 e he
          -- the per-key loop on [kA, kB]
          rw [takeSnapList] at hk3
          obtain ⟨⟨sg1, cv1⟩, hg1, hg2⟩ := exceptBind_ok hk3
          obtain ⟨⟨sA, sv1⟩, hA1, hA3⟩ := exceptBind_ok hg2
          -- the A read yields the A proxy
          have hnode1 : nodeAt sk1.root [] = some (MVal.obj false
              [(kA, setAtPath (MVal.obj false ea) pa kw vw),
               (kB, MVal.obj false eb)]) := by
            rw [hsk1root, hroot2]
            rfl
          have hcv1 : cv1 = TVal.prox ([] ++ [kA]) :=
            getTrap_mutable sk1 [] kA sg1 cv1
              [(kA, setAtPath (MVal.obj false ea) pa kw vw),
               (kB, MVal.obj false eb)]
              (setAtPath (MVal.obj false ea) pa kw vw) hnode1
              (by simp [lookupKey]) (isMutable_setAtPath _ _ _ _ _) hg1
          rw [List.nil_append] at hcv1
          subst hcv1
          -- the A child slot is tombstoned, so A is rebuilt fresh
          have hgA : lookupKey sg1.snapC [kA] = some none := by
            rcases getTrap_track _ _ _ _ _ hg1 with ⟨hs, _⟩ | ⟨_, hs, _⟩
            · rw [hs, hsk1sc]
              exact htombA
            · rw [hs]
              simp only [List.nil_append]
              exact lookupKey_setKey_self _ _ _
          have hext1 : SnapExt sk1 sg1 := getTrap_ext _ _ _ _ _ hg1
          obtain ⟨aA2, hsv1, hge, hsAcache, hsAnext, hextA⟩ :=
            takeSnapshot_fresh m sg1 [kA] sA sv1 hgA hA1
          -- bookkeeping across the A rebuild
          have hg1next : sg1.snapNext = st.snapNext := by
            rw [(getTrap_shape _ _ _ _ _ hg1).2.2.1, hsk1next, hnext2]
          have haAlt : aA < st.snapNext := by
            obtain ⟨oA, hoA⟩ : ∃ oA, lookupKey st.snapHeap aA = some oA := by
              cases hx : lookupKey st.snapHeap aA with
              | none => rw [hx] at hheapA; exact absurd hheapA (by simp)
              | some oA => exact ⟨oA, rfl⟩
            exact hlt _ (lookupKey_mem hoA)
          have haA2ne : aA2 ≠ aA := by
            intro he
            rw [he] at hge
            rw [hg1next] at hge
            omega
          -- step past the A entry in the loop
          rw [hsv1] at hA3
          simp only [toSVal] at hA3
          try simp only at hA3
          obtain ⟨⟨sr, rest⟩, hr1, hr2⟩ := exceptBind_ok hA3
          -- the B read yields the B proxy, whose snapshot is still cached
          rw [takeSnapList] at hr1
          obtain ⟨⟨sg2, cv2⟩, hg3, hg4⟩ := exceptBind_ok hr1
          have hco1A : cacheTracked sg1 := hext1.2.2.2.2.2.1 hco1
          have hcoA : cacheTracked sA := hextA.2.2.2.2.2.1 hco1A
          have hsAroot : sA.root = sk1.root := by
            rw [hextA.1, hext1.1]
          have hnodeA : nodeAt sA.root [] = some (MVal.obj false
              [(kA, setAtPath (MVal.obj false ea) pa kw vw),
               (kB, MVal.obj false eb)]) := by
            rw [hsAroot, hsk1root, hroot2]
            rfl
          have hcv2 : cv2 = TVal.prox ([] ++ [kB]) :=
            getTrap_mutable sA [] kB sg2 cv2
              [(kA, setAtPath (MVal.obj false ea) pa kw vw),
               (kB, MVal.obj false eb)]
              (MVal.obj false eb) hnodeA
              (by
                simp only [lookupKey]
                rw [if_neg (fun he => hkAB he.symm)]
                simp [lookupKey])
              (by rfl) hg3
          rw [List.nil_append] at hcv2
          subst hcv2
          have hliveBsg1 : lookupKey sg1.snapC [kB] = some (some aB) := by
            rcases getTrap_track _ _ _ _ _ hg1 with ⟨hs, _⟩ | ⟨_, hs, _⟩
            · rw [hs, hsk1sc]
              exact hliveB2
            · rw [hs]
              simp only [List.nil_append]
              rw [lookupKey_setKey_ne _ _ _ _ hABne.symm]
              rw [hsk1sc]
              exact hliveB2
          have hliveBsA : lookupKey sA.snapC [kB] = some (some aB) :=
            hextA.2.2.2.1 hco1A [kB] aB hliveBsg1
          have hliveBsg2 : lookupKey sg2.snapC [kB] = some (some aB) := by
            rcases getTrap_track _ _ _ _ _ hg3 with ⟨hs, _⟩ | ⟨hnt, hs, _⟩
            · rw [hs]
              exact hliveBsA
            · exfalso
              rw [List.nil_append] at hnt
              exact hnt (hcoA [kB] (by rw [hliveBsA]; rfl))
          obtain ⟨⟨sB, sv2⟩, hB1, hB4⟩ := exceptBind_ok hg4
          cases m with
          | zero => rw [takeSnapshot] at hA1; exact absurd hA1 (by simp)
          | succ m2 =>
            rw [takeSnapshot_cached m2 sg2 [kB] aB hliveBsg2] at hB1
            simp only [Except.ok.injEq, Prod.mk.injEq] at hB1
            obtain ⟨hsB, hsv2⟩ := hB1
            rw [← hsv2] at hB4
            simp only [toSVal] at hB4
            try simp only at hB4
            obtain ⟨⟨sr2, rest2⟩, hn1, hn2⟩ := exceptBind_ok hB4
            rw [takeSnapList] at hn1
            simp only [pure, Except.pure, Except.ok.injEq, Prod.mk.injEq] at hn1 hn2 hr2
            obtain ⟨hsr2, hrest2⟩ := hn1
            rw [← hsr2, ← hrest2] at hn2
            obtain ⟨hsr, hrest⟩ := hn2
            rw [← hsr, ← hrest] at hr2
            obtain ⟨hskm, hes⟩ := hr2
            -- skm is sB, es is the two-entry record
            rw [← hsB] at hskm
            -- final allocation
            have hextB : SnapExt sg1 sB := by
              rw [← hsB]
              exact SnapExt_trans hextA (getTrap_ext _ _ _ _ _ hg3)
            have hlt1g : heapLt sg1 := hext1.2.2.2.2.2.2 hlt1
            have hltB : heapLt sB := hextB.2.2.2.2.2.2 hlt1g
            have hheapBsB : lookupKey sB.snapHeap aB = some oB := by
              apply hextB.2.2.1
              apply hext1.2.2.1
              rw [hsk1heap, hheap2]
              exact hheapB
            have hnextB : st.snapNext ≤ sB.snapNext := by
              have h1 : sg1.snapNext ≤ sB.snapNext := hextB.2.1
              rw [hg1next] at h1
              exact h1
            have ha0lt : a0 < st.snapNext := hlt _ (lookupKey_mem hheap0)
            have hskmB : skm = sB := hskm.symm.trans hsB
            refine ⟨skm.snapNext, aA2, hk4.2.symm, ?_, haA2ne, ?_, ?_⟩
            · rw [← hk4.1]
              simp only
              rw [← hes]
              apply lookupKey_append_fresh
              intro e he
              apply Nat.ne_of_lt
              rw [hskmB] at he ⊢
              exact hltB e he
            · rw [← hk4.1]
              simp only
              rw [hskmB]
              rw [lookupKey_append_left _ _ _ (by rw [hheapBsB]; rfl)]
              exact hheapBsB
            · rw [hskmB]
              omega

unseal takeSnapshot takeSnapList invalidateSnapshots in
theorem C4_subtree_sharing_witness :
    ∃ r2 aA2, sndOk c4Snap2 = TVal.plain (MVal.snap r2) ∧
      lookupKey (fstOk c4Snap2).snapHeap r2 =
        some ⟨true, [("A", SVal.ref aA2), ("B", SVal.ref 1)]⟩ ∧
      aA2 ≠ 0 ∧
      lookupKey (fstOk c4Snap2).snapHeap 1 =
        some ⟨true, [("y", SVal.scal (Scal.num 2))]⟩ ∧
      r2 ≠ 2 :=
  C4_subtree_sharing 20 c4St (okOr c4St2) (fstOk c4Snap2) "A" "B" "x" []
    (MVal.scal (Scal.num 9)) [("x", MVal.scal (Scal.num 1))]
    [("y", MVal.scal (Scal.num 2))] 2 0 1
    ⟨true, [("y", SVal.scal (Scal.num 2))]⟩ (sndOk c4Snap2)
    (by decide) (by rfl)
    (by
      intro q hq
      obtain ⟨v, hv⟩ : ∃ v, lookupKey c4St.snapC q = some v := by
        cases hx : lookupKey c4St.snapC q with
        | none => rw [hx] at hq; exact absurd hq (by simp)
        | some v => exact ⟨v, rfl⟩
      have hm := lookupKey_mem hv
      have hsc : c4St.snapC =
          [([], some 2), (["A"], some 0), (["B"], some 1)] := by rfl
      rw [hsc] at hm
      simp only [List.mem_cons, List.not_mem_nil, or_false, Prod.mk.injEq] at hm
      rcases hm with ⟨h1, _⟩ | ⟨h1, _⟩ | ⟨h1, _⟩ <;> subst h1 <;> decide)
    (by
      intro e he
      have hh : c4St.snapHeap =
          [(0, ⟨true, [("x", SVal.scal (Scal.num 1))]⟩),
           (1, ⟨true, [("y", SVal.scal (Scal.num 2))]⟩),
           (2, ⟨true, [("A", SVal.ref 0), ("B", SVal.ref 1)]⟩)] := by rfl
      have hn : c4St.snapNext = 3 := by rfl
      rw [hh] at he
      rw [hn]
      simp only [List.mem_cons, List.not_mem_nil, or_false] at he
      rcases he with h1 | h1 | h1 <;> subst h1 <;> decide)
    (by
      intro q hq
      obtain ⟨t, ht⟩ := hq
      cases q with
      | nil => exact ⟨2, by rfl⟩
      | cons x q2 =>
        simp only [List.cons_append, List.cons.injEq] at ht
        obtain ⟨hx, ht2⟩ := ht
        obtain ⟨hq2, _⟩ := List.append_eq_nil.mp ht2
        subst hx
        subst hq2
        exact ⟨0, by rfl⟩)
    (by rfl) (by rfl) (by rfl) (by rfl) (by rfl) (by rfl)

/-- **C6.** `applyChange(handle, mutator)` runs the mutator and then flushes:
on success the result comes from a state `fin` by clearing the dirty set, so
the dirty set is empty when `applyChange` returns; `fin`'s dirty list is
duplicate-free and extends the dirty list as it stood when the mutator
finished; and the invocation log grows by exactly that list, in order.
Hence every callback dirty after the mutator is run, every callback dirtied
as a side effect of a flush-time callback run is also run before
`applyChange` returns (the appended `ext` are exactly those), and no
callback runs more than once per flush (`fin.invalidated.Nodup` and the log
gains each element of `fin.invalidated` once). -/
theorem C6_applyChange_flush (n : Nat) (st stm st' : St) (acts : List Act)
    (hm : acts.foldlM runAct st = Except.ok stm)
    (h : applyChange n st acts = Except.ok st')
    (hnd : st.invalidated.Nodup) :
    st'.invalidated = [] ∧
    ∃ fin : St,
      st' = { fin with invalidated := [] } ∧
      fin.invalidated.Nodup ∧
      (∃ ext, fin.invalidated = stm.invalidated ++ ext) ∧
      fin.log = st.log ++ fin.invalidated := by
  rw [applyChange] at h
  obtain ⟨stm2, hm2, hfl⟩ := exceptBind_ok h
  rw [hm] at hm2
  injection hm2 with hstm
  subst hstm
  obtain ⟨_, _, _, _, _, _, hlogm, _, _, hndm⟩ := runActs_shape acts st stm hm
  obtain ⟨fin, hfin, _, hnd2, hext, hlog, _⟩ :=
    flushLoop_spec n 0 stm st' hfl (hndm hnd)
  refine ⟨by rw [hfin], fin, hfin, hnd2, hext, ?_⟩
  rw [hlog, hlogm]
  simp

/-- **C9.** A subscription `c` on the key set of the object at path `p`
(i.e. subscribed to the `OWN_KEYS` pseudo-key, as a selector calling
`Object.keys(handle)` is): an `applyChange` adding a new key runs `c` (its
id enters the invocation log during the flush), an `applyChange` deleting a
key runs `c`, but an `applyChange` reassigning an existing key does not run
`c`, provided `c` has no per-key subscription on that key (a pure
`Object.keys` selector has none), `c` was not already dirty, and the
registered callbacks perform no flush-time mutations of their own. -/
theorem C9_keys_subscription (n : Nat) (st sta stb stc : St) (p : Path)
    (kNew kOld : String) (v w : MVal) (c : Nat) (fr : Bool)
    (entries : List (String × MVal))
    (hnode : nodeAt st.root p = some (MVal.obj fr entries))
    (hsub : c ∈ ((lookupKey st.cbs p).bind
        (fun bk => lookupKey bk PKey.ownKeysSym)).getD [])
    (hnd : st.invalidated.Nodup)
    (hnew : lookupKey entries kNew = none)
    (hadd : applyChange n st [Act.aset p kNew v] = Except.ok sta)
    (hdel : applyChange n st [Act.adel p kOld] = Except.ok stb)
    (hold : (lookupKey entries kOld).isSome = true)
    (hnoprop : c ∉ ((lookupKey st.cbs p).bind
        (fun bk => lookupKey bk (PKey.prop kOld))).getD [])
    (hclean : c ∉ st.invalidated)
    (hpure : ∀ e ∈ st.cbEnv, e.2.acts = [])
    (hset : applyChange n st [Act.aset p kOld w] = Except.ok stc) :
    c ∈ sta.log.drop st.log.length ∧
    c ∈ stb.log.drop st.log.length ∧
    c ∉ stc.log.drop st.log.length := by
  refine ⟨?_, ?_, ?_⟩
  · rw [applyChange] at hadd
    obtain ⟨stm, hm, hfl⟩ := exceptBind_ok hadd
    rw [List.foldlM_cons] at hm
    obtain ⟨st1, hr, hp1⟩ := exceptBind_ok hm
    simp only [List.foldlM, pure, Except.pure, Except.ok.injEq] at hp1
    subst hp1
    obtain ⟨hfr, sc, ext, hrec, hndp, hmem⟩ :=
      setTrap_ok st st1 p kNew v fr entries hnode hr
    have hcin : c ∈ st1.invalidated := (hmem c).mpr (Or.inr (Or.inl ⟨hnew, hsub⟩))
    have hndm : st1.invalidated.Nodup := hndp hnd
    obtain ⟨fin, hfina, _, _, ⟨ext2, hext2⟩, hlog, _⟩ :=
      flushLoop_spec n 0 st1 sta hfl hndm
    have hlogm : st1.log = st.log := by rw [hrec]
    have hsta : sta.log = fin.log := by rw [hfina]
    rw [hsta, hlog, List.drop_zero, hlogm, List.drop_left, hext2]
    exact List.mem_append_left _ hcin
  · rw [applyChange] at hdel
    obtain ⟨stm, hm, hfl⟩ := exceptBind_ok hdel
    rw [List.foldlM_cons] at hm
    obtain ⟨st1, hr, hp1⟩ := exceptBind_ok hm
    simp only [List.foldlM, pure, Except.pure, Except.ok.injEq] at hp1
    subst hp1
    have hmem := deleteProperty_invalidated st st1 p kOld hr
    obtain ⟨sc, ext, hrec, hndp⟩ := deleteProperty_shape st st1 p kOld hr
    have hcin : c ∈ st1.invalidated := (hmem c).mpr (Or.inr hsub)
    have hndm : st1.invalidated.Nodup := hndp hnd
    obtain ⟨fin, hfinb, _, _, ⟨ext2, hext2⟩, hlog, _⟩ :=
      flushLoop_spec n 0 st1 stb hfl hndm
    have hlogm : st1.log = st.log := by rw [hrec]
    have hstb : stb.log = fin.log := by rw [hfinb]
    rw [hstb, hlog, List.drop_zero, hlogm, List.drop_left, hext2]
    exact List.mem_append_left _ hcin
  · rw [applyChange] at hset
    obtain ⟨stm, hm, hfl⟩ := exceptBind_ok hset
    rw [List.foldlM_cons] at hm
    obtain ⟨st1, hr, hp1⟩ := exceptBind_ok hm
    simp only [List.foldlM, pure, Except.pure, Except.ok.injEq] at hp1
    subst hp1
    obtain ⟨hfr, sc, ext, hrec, hndp, hmem⟩ :=
      setTrap_ok st st1 p kOld w fr entries hnode hr
    have hnotin : c ∉ st1.invalidated := by
      intro hc
      rcases (hmem c).mp hc with h1 | ⟨hn2, _⟩ | h3
      · exact hclean h1
      · rw [hn2] at hold
        simp at hold
      · exact hnoprop h3
    have hndm : st1.invalidated.Nodup := hndp hnd
    obtain ⟨fin, hfinc, _, _, _, hlog, hpureF⟩ :=
      flushLoop_spec n 0 st1 stc hfl hndm
    have hpureM : ∀ e ∈ st1.cbEnv, e.2.acts = [] := by
      rw [hrec]
      exact hpure
    have hfinv : fin.invalidated = st1.invalidated := hpureF hpureM
    have hlogm : st1.log = st.log := by rw [hrec]
    have hstc : stc.log = fin.log := by rw [hfinc]
    rw [hstc, hlog, List.drop_zero, hlogm, List.drop_left, hfinv]
    exact hnotin

unseal invalidateSnapshots in
theorem C9_keys_subscription_witness :
    3 ∈ (okOr keysAdd).log.drop (okOr keysSub).log.length ∧
    3 ∈ (okOr keysDel).log.drop (okOr keysSub).log.length ∧
    3 ∉ (okOr keysSet).log.drop (okOr keysSub).log.length :=
  C9_keys_subscription 20 (okOr keysSub) (okOr keysAdd) (okOr keysDel)
    (okOr keysSet) [] "b" "a" (MVal.scal (Scal.num 5)) (MVal.scal (Scal.num 9))
    3 false [("a", MVal.scal (Scal.num 1))]
    (by rfl) (by decide) (by decide) (by rfl) (by rfl) (by rfl) (by rfl)
    (by decide) (by decide)
    (by
      intro e he
      have henv : (okOr keysSub).cbEnv =
          [(3, ⟨[], Expr.objKeys Expr.root, []⟩)] := by rfl
      rw [henv] at he
      rw [List.mem_singleton] at he
      rw [he])
    (by rfl)

unseal invalidateSnapshots in
theorem C6_applyChange_flush_witness :
    (okOr cascadeRun).invalidated = [] ∧
    ∃ fin : St,
      okOr cascadeRun = { fin with invalidated := [] } ∧
      fin.invalidated.Nodup ∧
      (∃ ext, fin.invalidated = (okOr cascadeMut).invalidated ++ ext) ∧
      fin.log = (okOr cascadeSt).log ++ fin.invalidated :=
  C6_applyChange_flush 20 (okOr cascadeSt) (okOr cascadeMut) (okOr cascadeRun)
    [Act.aset [] "x" (MVal.scal (Scal.num 10))] (by rfl) (by rfl) (by decide)

/-- C10: for every value that is not a structured mutable value — a scalar
(including `null`, with opaque values modelled as scalars) or a value
registered as a snapshot — `makeReactive` returns the value itself unchanged
and registers no tracking state (the state is untouched). -/
theorem C10_makeReactive_passthrough (st : St) (v : MVal)
    (h : isMutable v = false) :
    makeReactive st v = (st, TVal.plain v) := by
  simp [makeReactive, makeReactiveWithParent, h]

/-- Witness for C10 at a snapshot value. -/
theorem C10_makeReactive_passthrough_witness :
    isMutable (MVal.snap 0) = false ∧
    makeReactive dynSt (MVal.snap 0) = (dynSt, TVal.plain (MVal.snap 0)) :=
  ⟨rfl, C10_makeReactive_passthrough dynSt (MVal.snap 0) rfl⟩

/-- C7: `takeSnapshot` on a structured value that was never passed through
`makeReactive` (a raw object, as opposed to a proxy) fails immediately with
the untracked-value error, and `applySnapshot` on such a value surfaces the
same error (it calls `takeSnapshot` first). -/
theorem C7_untracked_error (st : St) (n : Nat) (fr : Bool)
    (es : List (String × MVal)) (s : MVal) :
    takeSnapshot (n + 1) st (TVal.plain (MVal.obj fr es))
      = Except.error Err.nonProxified ∧
    applySnapshot (n + 1) st (TVal.plain (MVal.obj fr es)) s
      = Except.error Err.nonProxified := by
  have h1 : takeSnapshot (n + 1) st (TVal.plain (MVal.obj fr es))
      = Except.error Err.nonProxified := by
    rw [takeSnapshot]
    simp only [isMutableT, isMutable]
    rfl
  refine ⟨h1, ?_⟩
  rw [applySnapshot, h1]
  rfl

unseal invalidateSnapshots in
/-- C5: the dynamic-dependency scenario on `{a: 1, b: 2, key: "a"}` with the
selector `s => s[s.key]`: the callback runs once on subscription; a write to
`a` re-invokes it; changing `key` to `"b"` re-invokes it; afterwards a write
to `a` does not re-invoke it but a write to `b` does; and after the `key`
change the dependent-set of `([], "a")` no longer contains the callback
while the dependent-set of `([], "b")` does — the dependency set was
replaced by exactly the pairs read during the last run. -/
theorem C5_dynamic_dependencies :
    dynSub.map St.log = Except.ok [1] ∧
    dynAfterA.map St.log = Except.ok [1, 1] ∧
    dynAfterKey.map St.log = Except.ok [1, 1, 1] ∧
    (dynAfterKey.bind fun st =>
      applyChange 20 st [Act.aset [] "a" (MVal.scal (Scal.num 43))]).map St.log
      = Except.ok [1, 1, 1] ∧
    (dynAfterKey.bind fun st =>
      applyChange 20 st [Act.aset [] "b" (MVal.scal (Scal.num 44))]).map St.log
      = Except.ok [1, 1, 1, 1] ∧
    dynAfterKey.map (fun st =>
      (lookupKey st.cbs ([] : Path)).map (fun bk =>
        (lookupKey bk (PKey.prop "a"), lookupKey bk (PKey.prop "b"))))
      = Except.ok (some (some [], some [1])) := by
  refine ⟨?_, ?_, ?_, ?_, ?_, ?_⟩ <;> rfl

/-- C3 (code evaluation at the failing input): with the frozen-field check
commented out in core.ts, reading a frozen structured field violates the
proxy `get` invariant and raises a `TypeError` instead of returning the
value verbatim, and reading a frozen scalar field — though returning the
value — records a dependency for the current callback, contrary to the
claim. -/
theorem C3_frozen_field_read :
    getTrap frozenStructSt [] "y" = Except.error Err.typeError ∧
    (getTrap frozenScalSt [] "y").map (fun r => r.2)
      = Except.ok (TVal.plain (MVal.scal (Scal.num 5))) ∧
    (getTrap frozenScalSt [] "y").map (fun r =>
        (lookupKey r.1.cbs ([] : Path)).map (fun bk => lookupKey bk (PKey.prop "y")))
      = Except.ok (some (some [7])) := by
  refine ⟨?_, ?_, ?_⟩ <;> rfl

unseal invalidateSnapshots in
/-- C2 counterexample: callback 1 is subscribed to the pair `([], "a")`
(shown by the first conjunct), yet deleting `"a"` leaves the dirty set empty
— while a write to `"a"` dirties callback 1.  Deletion therefore does not
perform the same per-key dirtying as a write. -/
theorem C2_delete_no_perKey_dirty_cex :
    keySubSt.map (fun st =>
      (lookupKey st.cbs ([] : Path)).map (fun bk => lookupKey bk (PKey.prop "a")))
      = Except.ok (some (some [1])) ∧
    (keySubSt.bind fun st => deleteProperty st [] "a").map St.invalidated
      = Except.ok [] ∧
    (keySubSt.bind fun st => setTrap st [] "a" (MVal.scal (Scal.num 2))).map
      St.invalidated = Except.ok [1] := by
  refine ⟨?_, ?_, ?_⟩ <;> rfl

/-- C2 (amended): deleting key `k` on handle `h` dirties exactly the
callbacks subscribed to `h`'s key-set-changed (`OWN_KEYS`) pseudo-key; the
callbacks subscribed to the pair `(h, k)` are not consulted (unlike a
write). -/
theorem C2_delete_dirties_ownKeys (st st' : St) (p : Path) (k : String)
    (h : deleteProperty st p k = Except.ok st') (c : Nat) :
    c ∈ st'.invalidated ↔ c ∈ st.invalidated ∨
      c ∈ ((lookupKey st.cbs p).bind (fun bk => lookupKey bk PKey.ownKeysSym)).getD [] :=
  deleteProperty_invalidated st st' p k h c

unseal invalidateSnapshots in
/-- Witness for C2 (amended): the concrete scenario state. -/
theorem C2_delete_dirties_ownKeys_witness :
    1 ∈ (okOr (keySubSt.bind fun st => deleteProperty st [] "a")).invalidated ↔
      1 ∈ (okOr keySubSt).invalidated ∨
      1 ∈ ((lookupKey (okOr keySubSt).cbs ([] : Path)).bind
            (fun bk => lookupKey bk PKey.ownKeysSym)).getD [] :=
  C2_delete_dirties_ownKeys (okOr keySubSt)
    (okOr (keySubSt.bind fun st => deleteProperty st [] "a")) [] "a" (by rfl) 1

/-- C8: a snapshot returned by `takeSnapshot` on a structured handle is a
frozen object (`FREEZE` is `true`), and a subsequent direct write to one of
its properties fails with a hard `TypeError` at the point of the write —
strict-mode assignment to a frozen object raises and changes nothing, so the
snapshot's contents are unchanged (no new state is produced). -/
theorem C8_snapshot_frozen (st st' : St) (n : Nat) (p : Path) (a : Nat)
    (k : String) (w : SVal)
    (hf : heapFrozen st) (hd : snapDomOK st)
    (h : takeSnapshot n st (TVal.prox p) = Except.ok (st', TVal.plain (MVal.snap a))) :
    (∃ o, lookupKey st'.snapHeap a = some o ∧ o.frozen = true) ∧
    writeSnap st' a k w = Except.error Err.typeError := by
  obtain ⟨hf', _, _, hres⟩ := (takeSnapshot_frozen n).1 st _ st' _ hf hd h
  have hsome := hres a rfl (by simp [isMutableT])
  obtain ⟨o, ho⟩ := Option.isSome_iff_exists.mp hsome
  have hfroz : o.frozen = true := hf' _ (lookupKey_mem ho)
  refine ⟨⟨o, ho, hfroz⟩, ?_⟩
  simp only [writeSnap, ho, hfroz, if_pos]
  rfl

unseal takeSnapshot takeSnapList in
/-- Witness for C8 on the handle `{a: 1}`. -/
theorem C8_snapshot_frozen_witness :
    (∃ o, lookupKey (fstOk (takeSnapshot 5 oneKeySt (TVal.prox []))).snapHeap 0
        = some o ∧ o.frozen = true) ∧
    writeSnap (fstOk (takeSnapshot 5 oneKeySt (TVal.prox []))) 0 "a"
        (SVal.scal (Scal.num 9)) = Except.error Err.typeError :=
  C8_snapshot_frozen oneKeySt _ 5 [] 0 "a" (SVal.scal (Scal.num 9))
    (by
      have hh : oneKeySt.snapHeap = [] := by rfl
      intro e he
      rw [hh] at he
      simp at he)
    (by
      have hsc : oneKeySt.snapC = [([], none)] := by rfl
      intro e he b hb
      rw [hsc] at he
      simp only [List.mem_singleton] at he
      rw [he] at hb
      exact absurd hb (by simp))
    (by rfl)

end Snappy
